import Mathlib

/-!
# OSGB to 3D-Tiles converter: tile tree, bounding volumes, texture decoding

A shallow embedding of `src/OSGBConvert.cpp`.

Conventions of the embedding:

* `QString` is a list of characters (`indexOf`, `left`, `mid` work on positions).
* `double` coordinates and geometric errors are rationals: only `min`, `max`,
  comparison and doubling are used on them, which are exact on finite doubles.
* `int` and `unsigned` values are naturals (or integers where a value can be
  negative) and their arithmetic is exact, which agrees with C++ as long as
  the values stay below 2^31; the theorems state the sizes for which they do.
  In `resizeImage`, whose sizes are not bounded by its caller's test, every
  `int` result passes through `checkInt`, and a signed overflow gives `none`.
* `std::vector<unsigned char>` is `List Nat`, every element below 256.
* An operation whose C++ behaviour is undefined or throws (reading past a
  buffer, calling `value()` on an absent optional) makes the embedded function
  return `none`.
-/

set_option linter.unusedVariables false

namespace scially

/-- A `QString`, as its sequence of characters. -/
abbrev QString := List Char

/-! ## Bounding volumes -/

/-- A point of three `double` coordinates (`osg::Vec3d`). -/
structure Vec3 where
  x : ℚ
  y : ℚ
  z : ℚ
deriving DecidableEq

namespace Vec3

/-- Componentwise minimum. -/
def cmin (a b : Vec3) : Vec3 := ⟨min a.x b.x, min a.y b.y, min a.z b.z⟩

/-- Componentwise maximum. -/
def cmax (a b : Vec3) : Vec3 := ⟨max a.x b.x, max a.y b.y, max a.z b.z⟩

/-- Componentwise order. -/
def le (a b : Vec3) : Prop := a.x ≤ b.x ∧ a.y ≤ b.y ∧ a.z ≤ b.z

instance (a b : Vec3) : Decidable (le a b) := by
  unfold le
  infer_instance

end Vec3

/-- The axis-aligned box of a `BoundingVolumeBox`, by its two corners
(`region.setMin`, `region.setMax` in `convertGLB`). -/
structure BoundingVolumeBox where
  min : Vec3
  max : Vec3
deriving DecidableEq

/-- Modelled from the spec: `BoundingVolumeBox::merge` is declared in a header
that is not part of the sources; §4.5 gives it as the componentwise minimum of
the minimums and maximum of the maximums. -/
def BoundingVolumeBox.merge (a b : BoundingVolumeBox) : BoundingVolumeBox :=
  ⟨Vec3.cmin a.min b.min, Vec3.cmax a.max b.max⟩

/-- Box `a` contains box `b`: no corner of `b` lies outside `a`. -/
def BoundingVolumeBox.contains (a b : BoundingVolumeBox) : Prop :=
  Vec3.le a.min b.min ∧ Vec3.le b.max a.max

instance (a b : BoundingVolumeBox) : Decidable (a.contains b) := by
  unfold BoundingVolumeBox.contains
  infer_instance

/-! ## Tileset nodes -/

/-- The `content` of a tileset node: the container's uri and its box. -/
structure ContentTile where
  uri : QString
  boundingVolume : Option BoundingVolumeBox
deriving DecidableEq

/-- A tileset node (`RootTile`). `boundingVolume` is the optional
`boundingVolume.box` of the source. -/
inductive RootTile where
  | mk (content : Option ContentTile) (boundingVolume : Option BoundingVolumeBox)
      (geometricError : ℚ) (refine : QString) (children : List RootTile)

namespace RootTile

/-- Field `content`. -/
def content : RootTile → Option ContentTile
  | mk c _ _ _ _ => c

/-- Field `boundingVolume.box`. -/
def boundingVolume : RootTile → Option BoundingVolumeBox
  | mk _ b _ _ _ => b

/-- Field `geometricError`. -/
def geometricError : RootTile → ℚ
  | mk _ _ e _ _ => e

/-- Field `refine`. -/
def refine : RootTile → QString
  | mk _ _ _ r _ => r

/-- Field `children`. -/
def children : RootTile → List RootTile
  | mk _ _ _ _ cs => cs

/-- A freshly declared tile (`RootTile child;`): no content, no box, no
children. -/
def fresh : RootTile := mk none none 0 [] []

/-- The box of the node's own content. -/
def contentBox (t : RootTile) : Option BoundingVolumeBox :=
  t.content.bind ContentTile.boundingVolume

mutual
/-- A node and all its descendants, parents first. -/
def nodes : RootTile → List RootTile
  | mk c b e r cs => mk c b e r cs :: nodesList cs
/-- The nodes of a list of trees. -/
def nodesList : List RootTile → List RootTile
  | [] => []
  | t :: ts => nodes t ++ nodesList ts
end

end RootTile

/-! ## The tile tree and its conversion -/

/-- What an `OSGBConvert` built at a location does: the buffer `toB3DM`
returns (empty on failure), whether the file write of `writeB3DM` succeeds at a
location, and the `region` left by `convertGLB`. -/
structure OSGBConvert where
  b3dm : List Nat
  fileWrite : QString → Bool
  region : BoundingVolumeBox

/-- `OSGBConvert::toB3DM`. -/
def OSGBConvert.toB3DM (c : OSGBConvert) : List Nat := c.b3dm

/-- `OSGBConvert::writeB3DM`: refuses an empty buffer, otherwise reports
whether opening and writing the file worked. -/
def OSGBConvert.writeB3DM (c : OSGBConvert) (buffer : List Nat) (outLocation : QString) : Bool :=
  if buffer.isEmpty then false else c.fileWrite outLocation

/-- The surroundings of a conversion: the two extension constants and
`QDir::absolutePath` (declared outside the sources), the converter found at
each location, and what `value()` gives on an absent box (`none` when it
throws). -/
structure Env where
  OSGBEXTENSION : QString
  B3DMEXTENSION : QString
  absolutePath : QString → QString
  convert : QString → OSGBConvert
  absentValue : Option BoundingVolumeBox

/-- A node of the tile tree (`OSGBLevel`). -/
inductive OSGBLevel where
  | mk (nodeName : QString) (nodePath : QString) (subNodes : List OSGBLevel)

namespace OSGBLevel

/-- Field `nodeName`. -/
def nodeName : OSGBLevel → QString
  | mk n _ _ => n

/-- Field `nodePath`. -/
def nodePath : OSGBLevel → QString
  | mk _ p _ => p

/-- Field `subNodes`. -/
def subNodes : OSGBLevel → List OSGBLevel
  | mk _ _ s => s

/-- Modelled on `QDir::filePath`: the name inside the directory. -/
def filePath (dir name : QString) : QString := dir ++ '/' :: name

/-- `OSGBLevel::absoluteLocation`. -/
def absoluteLocation (env : Env) (l : OSGBLevel) : QString :=
  filePath l.nodePath l.nodeName ++ env.OSGBEXTENSION

end OSGBLevel

/-! ## `QString` operations used by the tile names -/

/-- Position of the first occurrence of `pat` in `s`, if any. -/
def findSub (pat : QString) : QString → Option Nat
  | [] => if pat.isPrefixOf [] then some 0 else none
  | c :: cs => if pat.isPrefixOf (c :: cs) then some 0 else (findSub pat cs).map (· + 1)

/-- `QString::indexOf(pat, start)` for `start ≥ 0`: the first position at or
after `start` where `pat` occurs, `-1` when there is none. -/
def indexOf (s pat : QString) (start : Nat) : Int :=
  match findSub pat (s.drop start) with
  | some i => ((start + i : Nat) : Int)
  | none => -1

/-- `QString::left(n)`. -/
def left (s : QString) (n : Int) : QString := s.take n.toNat

/-- `QString::mid(pos, n)` for `n ≥ 0`. -/
def mid (s : QString) (pos n : Int) : QString := (s.drop pos.toNat).take n.toNat

/-- The value of a run of decimal digits. -/
def digitsValue (ds : QString) : Nat := ds.foldl (fun a c => 10 * a + (c.toNat - 48)) 0

/-- A model of the library function `QString::toInt()` (base 10): surrounding
white space is ignored, one sign is allowed, the rest must be a non-empty run
of digits whose value fits an `int`; every other string converts to 0. -/
def toInt (s : QString) : Int :=
  let t := ((s.dropWhile Char.isWhitespace).reverse.dropWhile Char.isWhitespace).reverse
  let neg := t.head? == some '-'
  let ds := if t.head? == some '-' || t.head? == some '+' then t.tail else t
  if ds.isEmpty || !ds.all Char.isDigit then 0
  else
    let v : Int := if neg then -(digitsValue ds : Int) else (digitsValue ds : Int)
    if -2147483648 ≤ v ∧ v ≤ 2147483647 then v else 0

/-- The decimal numeral of `n`, as printed (`Nat.repr`). -/
def decimal (n : Nat) : QString := Nat.toDigits 10 n

namespace OSGBLevel

/-- `OSGBLevel::getTileName`. -/
def getTileName (l : OSGBLevel) : QString :=
  let p0 := indexOf l.nodeName ['_', 'L'] 0
  if p0 < 0 then l.nodeName
  else left l.nodeName p0

/-- `OSGBLevel::getLevelNumber`. -/
def getLevelNumber (l : OSGBLevel) : Int :=
  let p0 := indexOf l.nodeName ['_', 'L'] 0
  if p0 < 0 then 0
  else
    let p1 := indexOf l.nodeName ['_'] (p0 + 2).toNat
    if p1 < 0 then 0
    else toInt (mid l.nodeName (p0 + 2) (p1 - p0 - 2))

end OSGBLevel

namespace RootTile

/-- Assignment to `root.children` by `append`. -/
def appendChild : RootTile → RootTile → RootTile
  | mk c b e r cs, child => mk c b e r (cs ++ [child])

/-- Assignment to `root.boundingVolume`. -/
def setBoundingVolume : RootTile → BoundingVolumeBox → RootTile
  | mk c _ e r cs, b => mk c (some b) e r cs

/-- Assignments to `root.refine` and `root.content`. -/
def setRefineContent : RootTile → QString → ContentTile → RootTile
  | mk _ b e _ cs, r, c => mk (some c) b e r cs

/-- The tile with its `children` replaced. -/
def setChildren : RootTile → List RootTile → RootTile
  | mk c b e r _, cs => mk c b e r cs

end RootTile

namespace OSGBLevel

mutual
/-- `OSGBLevel::convertTiles(RootTile& root, const QString& output)`: the
returned pair is the `bool` result and `root` after the call; `none` is an
exception leaving the function. -/
def convertTiles (env : Env) (output : QString) : OSGBLevel → RootTile → Option (Bool × RootTile)
  | mk nodeName nodePath subNodes, root =>
    let convert := env.convert (absoluteLocation env (mk nodeName nodePath subNodes))
    let b3dmBuffer := convert.toB3DM
    if b3dmBuffer.isEmpty then some (false, root)
    else
      let outputLocation :=
        env.absolutePath (output ++ '/' :: getTileName (mk nodeName nodePath subNodes))
      let writeBytes : Int := if convert.writeB3DM b3dmBuffer outputLocation then 1 else 0
      if writeBytes ≤ 0 then some (false, root)
      else
        let content : ContentTile :=
          ⟨'.' :: '/' :: nodeName ++ env.B3DMEXTENSION, some convert.region⟩
        let root := root.setRefineContent "REPLACE".toList content
        let root := root.setBoundingVolume convert.region
        convertTilesLoop env output subNodes root
/-- The loop over `subNodes` in `convertTiles`: the child is converted into a
fresh tile, appended whatever its result, and its box merged into the
parent. `child.boundingVolume.box.value()` is the box of the child or, when it
is absent, `env.absentValue`; `none` is an exception or the dereference of an
absent box of `root`. -/
def convertTilesLoop (env : Env) (output : QString) :
    List OSGBLevel → RootTile → Option (Bool × RootTile)
  | [], root => some (true, root)
  | sub :: rest, root =>
    match convertTiles env output sub RootTile.fresh with
    | none => none
    | some (_, child) =>
      let root := root.appendChild child
      match root.boundingVolume, (child.boundingVolume <|> env.absentValue) with
      | some rb, some cb => convertTilesLoop env output rest (root.setBoundingVolume (rb.merge cb))
      | _, _ => none
end

end OSGBLevel

namespace OSGBLevel

mutual
/-- Every tile of the tree builds: `toB3DM` gives a non-empty buffer and
`writeB3DM` succeeds, for the tile and for all tiles below it. -/
def allBuild (env : Env) (output : QString) : OSGBLevel → Bool
  | mk nodeName nodePath subNodes =>
    let convert := env.convert (absoluteLocation env (mk nodeName nodePath subNodes))
    !convert.toB3DM.isEmpty &&
    convert.writeB3DM convert.toB3DM
      (env.absolutePath (output ++ '/' :: getTileName (mk nodeName nodePath subNodes))) &&
    allBuildList env output subNodes
/-- Every tile of every tree of the list builds. -/
def allBuildList (env : Env) (output : QString) : List OSGBLevel → Bool
  | [] => true
  | s :: rest => allBuild env output s && allBuildList env output rest
end

/-- The local box of a tile: the `region` of its converter. -/
def localBox (env : Env) (l : OSGBLevel) : BoundingVolumeBox :=
  (env.convert (absoluteLocation env l)).region

end OSGBLevel

/-- The merge, left to right, of a box with the published boxes of a list of
tiles. -/
def mergeVolumes (own : BoundingVolumeBox) (children : List RootTile) : BoundingVolumeBox :=
  (children.filterMap RootTile.boundingVolume).foldl BoundingVolumeBox.merge own

namespace OSGBLevel

mutual
/-- The tileset node of a tile all of whose descendants build, composed
bottom-up: the children's nodes first, then the merge of the local box with
their volumes. -/
def builtTile (env : Env) : OSGBLevel → RootTile
  | mk nodeName nodePath subNodes =>
    let region := localBox env (mk nodeName nodePath subNodes)
    .mk (some ⟨'.' :: '/' :: nodeName ++ env.B3DMEXTENSION, some region⟩)
      (some (mergeVolumes region (builtTiles env subNodes))) 0 "REPLACE".toList
      (builtTiles env subNodes)
/-- The tileset nodes of a list of tiles. -/
def builtTiles (env : Env) : List OSGBLevel → List RootTile
  | [] => []
  | s :: rest => builtTile env s :: builtTiles env rest
end

mutual
/-- The tileset node `t` was made for the tile: its content box is the
tile's local box and its children were made, in order, for the tile's
`subNodes`. -/
def Corresponds (env : Env) : OSGBLevel → RootTile → Prop
  | mk nodeName nodePath subNodes, t =>
    t.contentBox = some (localBox env (mk nodeName nodePath subNodes)) ∧
    CorrespondsList env subNodes t.children
/-- Lists of the same length whose entries correspond. -/
def CorrespondsList (env : Env) : List OSGBLevel → List RootTile → Prop
  | [], ts => ts = []
  | s :: rest, ts => ∃ t ts1, ts = t :: ts1 ∧ Corresponds env s t ∧ CorrespondsList env rest ts1
end

end OSGBLevel

namespace RootTile

/-- The published volume of `n` is the left-to-right merge of its own content
box with the published volumes of its children, none of which is absent. -/
def VolumeIsMerge (n : RootTile) : Prop :=
  ∃ own, n.contentBox = some own ∧ n.boundingVolume = some (mergeVolumes own n.children) ∧
    ∀ c ∈ n.children, c.boundingVolume ≠ none

/-- The published volume of `n` contains the volume of each child. -/
def EnclosesChildren (n : RootTile) : Prop :=
  ∀ c ∈ n.children, ∃ pb cb, n.boundingVolume = some pb ∧ c.boundingVolume = some cb ∧
    pb.contains cb

/-- The published volume of `n` contains the content box of `n` and of every
descendant of `n`. -/
def EnclosesContent (n : RootTile) : Prop :=
  ∀ d ∈ n.nodes, ∃ pb db, n.boundingVolume = some pb ∧ d.contentBox = some db ∧
    pb.contains db

/-- The volume, children and content conditions on one node together. -/
def NodeOK (n : RootTile) : Prop :=
  n.VolumeIsMerge ∧ n.EnclosesChildren ∧ n.EnclosesContent

/-- The first child of the node, when there is one, has a bounding box. -/
def firstChildHasBox (n : RootTile) : Bool :=
  match n.children with
  | [] => true
  | c :: _ => c.boundingVolume.isSome

mutual
/-- The tree with every `geometricError` reset to 0. -/
def eraseErrors : RootTile → RootTile
  | mk c b _ r cs => mk c b 0 r (eraseErrorsList cs)
/-- The trees of a list with every `geometricError` reset to 0. -/
def eraseErrorsList : List RootTile → List RootTile
  | [] => []
  | t :: ts => eraseErrors t :: eraseErrorsList ts
end

/-- The geometric error of `n` as `updateGeometryError` is said to leave it:
0 without children, otherwise twice the `geometricError` of the first child. -/
def ErrorFromFirstChildError (n : RootTile) : Prop :=
  (n.children = [] → n.geometricError = 0) ∧
  ∀ c cs, n.children = c :: cs → n.geometricError = 2 * c.geometricError

/-- The geometric error of `n` as the code leaves it: 0 without children,
otherwise twice what `gerr` computes from the bounding box of the first
child. -/
def ErrorFromFirstChildBox (gerr : BoundingVolumeBox → ℚ) (n : RootTile) : Prop :=
  (n.children = [] → n.geometricError = 0) ∧
  ∀ c cs, n.children = c :: cs →
    ∃ box, c.boundingVolume = some box ∧ n.geometricError = 2 * gerr box

end RootTile

/-! ## Geometric error -/

mutual
/-- `OSGBLevel::updateGeometryError`, given the function `gerr` that
`BoundingVolumeBox::geometricError()` computes (declared outside the sources).
`none` is the dereference of an absent box. -/
def updateGeometryError (gerr : BoundingVolumeBox → ℚ) : RootTile → Option RootTile
  | .mk c b _ r [] => some (.mk c b 0 r [])
  | .mk c b _ r (t :: ts) =>
    match updateGeometryError gerr t, updateGeometryErrorList gerr ts with
    | some t1, some ts1 =>
      match t1.boundingVolume with
      | some box => some (.mk c b (gerr box * 2) r (t1 :: ts1))
      | none => none
    | _, _ => none
/-- The range-for of `updateGeometryError` over the children. -/
def updateGeometryErrorList (gerr : BoundingVolumeBox → ℚ) : List RootTile → Option (List RootTile)
  | [] => some []
  | t :: ts =>
    match updateGeometryError gerr t, updateGeometryErrorList gerr ts with
    | some t1, some ts1 => some (t1 :: ts1)
    | _, _ => none
end

end scially

/-! ## Texture decoding (`namespace internal`) -/

namespace internal

/-- A colour of three channels (`Color`, declared in the header): every
channel the code stores is in 0..255. -/
structure Color where
  r : Nat
  g : Nat
  b : Nat
deriving DecidableEq

/-- `RGB565_RGB`: each channel is computed in `int` and stored in an
`unsigned char`. -/
def RGB565_RGB (color0 : Nat) : Color :=
  let r0 := (((color0 >>> 11) &&& 0x1F) <<< 3) % 256
  let g0 := (((color0 >>> 5) &&& 0x3F) <<< 2) % 256
  let b0 := ((color0 &&& 0x1F) <<< 3) % 256
  ⟨r0, g0, b0⟩

/-- `Mix_Color`. For an `idx` outside 0..3 no case of the `switch` assigns
`finalColor`, and the result is `none`. -/
def Mix_Color (color0 color1 : Nat) (c0 c1 : Color) (idx : Int) : Option Color :=
  if color0 > color1 then
    if idx = 0 then some ⟨c0.r, c0.g, c0.b⟩
    else if idx = 1 then some ⟨c1.r, c1.g, c1.b⟩
    else if idx = 2 then
      some ⟨(2 * c0.r + c1.r) / 3, (2 * c0.g + c1.g) / 3, (2 * c0.b + c1.b) / 3⟩
    else if idx = 3 then
      some ⟨(c0.r + 2 * c1.r) / 3, (c0.g + 2 * c1.g) / 3, (c0.b + 2 * c1.b) / 3⟩
    else none
  else
    if idx = 0 then some ⟨c0.r, c0.g, c0.b⟩
    else if idx = 1 then some ⟨c1.r, c1.g, c1.b⟩
    else if idx = 2 then some ⟨(c0.r + c1.r) / 2, (c0.g + c1.g) / 2, (c0.b + c1.b) / 2⟩
    else if idx = 3 then some ⟨0, 0, 0⟩
    else none

/-- The channels of an RGB565 value as the format defines them: the top 5
bits, the middle 6 bits and the low 5 bits, scaled by 8, 4 and 8. -/
def rgb565Channels (color : Nat) : Color :=
  ⟨color / 2048 * 8, color / 32 % 64 * 4, color % 32 * 8⟩

/-- One assignment `new_buf[dst] = jpeg_buf[src]`; `none` when either index is
outside its vector. -/
def copyByte (jpeg_buf : List Nat) (src dst : Nat) (new_buf : List Nat) : Option (List Nat) :=
  match jpeg_buf[src]? with
  | none => none
  | some v => if dst < new_buf.length then some (new_buf.set dst v) else none

/-- The result of an `int` computation whose exact value is `n`: `none` when
`n` is above `INT_MAX = 2^31 - 1`, where the signed overflow is undefined. No
value of the code embedded here is negative. -/
def checkInt (n : Nat) : Option Nat := if n < 2147483648 then some n else none

/-- `resizeImage`: the new contents of `jpeg_buf`; `none` for a division by
zero, an `int` overflow or an index outside a vector. The `int` values are
the size `new_w * new_h * 3`, `pos`, `row * width + col`, `old_pos` and the two
indices of each assignment. -/
def resizeImage (jpeg_buf : List Nat) (width height new_w new_h : Nat) : Option (List Nat) :=
  (checkInt (new_w * new_h * 3)).bind fun size =>
    let new_buf := List.replicate size 0
    if new_w = 0 then none
    else
      let scale := width / new_w
      (List.range new_h).foldlM (fun buf row =>
        (List.range new_w).foldlM (fun buf col =>
          (checkInt (row * new_w + col)).bind fun pos =>
          (checkInt (row * width + col)).bind fun cell =>
          (checkInt (cell * scale)).bind fun old_pos =>
          (List.range 3).foldlM (fun buf i =>
            (checkInt (3 * old_pos + i)).bind fun src =>
            (checkInt (3 * pos + i)).bind fun dst =>
            copyByte jpeg_buf src dst buf) buf) buf) new_buf

/-- The three assignments of one pixel, each channel stored in an
`unsigned char`; `none` when the pixel lies outside the vector. -/
def writePixel (jpeg_buf : List Nat) (byte_pos : Nat) (cf : Color) : Option (List Nat) :=
  if byte_pos + 2 < jpeg_buf.length then
    some (((jpeg_buf.set byte_pos (cf.r % 256)).set (byte_pos + 1) (cf.g % 256)).set
      (byte_pos + 2) (cf.b % 256))
  else none

/-- `std::vector::resize`: shortened, or extended with zeros. -/
def vectorResize (v : List Nat) (n : Nat) : List Nat :=
  v.take n ++ List.replicate (n - v.length) 0

/-- The variables of the decoding loop of `fill4BitImage`. -/
structure FillState where
  jpeg_buf : List Nat
  pData : Nat
  x_pos : Nat
  y_pos : Nat

/-- One pass of the loop over the four rows of a cell: the four indices of
the byte at `pData`, the four pixels of row `i`, then `pData++`. The pair is
`jpeg_buf` and `pData`. -/
def fillRow (img : List Nat) (width color0 color1 : Nat) (c0 c1 : Color) (x_pos y_pos : Nat)
    (st : List Nat × Nat) (i : Nat) : Option (List Nat × Nat) :=
  match img[st.2]? with
  | none => none
  | some byte =>
    let idx : List Nat :=
      [byte &&& 0x03, (byte >>> 2) &&& 0x03, (byte >>> 4) &&& 0x03, (byte >>> 6) &&& 0x03]
    match (List.range 4).foldlM (fun buf pixel_idx =>
        match idx[pixel_idx]? with
        | none => none
        | some k =>
          match Mix_Color color0 color1 c0 c1 (k : Int) with
          | none => none
          | some cf =>
            let cell_x_pos := x_pos + pixel_idx
            let cell_y_pos := y_pos + i
            let byte_pos := (cell_x_pos + cell_y_pos * width) * 3
            writePixel buf byte_pos cf) st.1 with
    | none => none
    | some buf => some (buf, st.2 + 1)

/-- One pass of the loop over the 8-byte blocks: the two endpoint colours
(little-endian), the four rows of the cell, then the move to the next cell. -/
def fillBlock (img : List Nat) (width : Nat) (st : FillState) : Option FillState :=
  match img[st.pData]?, img[st.pData + 1]?, img[st.pData + 2]?, img[st.pData + 3]? with
  | some a0, some a1, some b0, some b1 =>
    let color0 := a0 + 256 * a1
    let color1 := b0 + 256 * b1
    let c0 := RGB565_RGB color0
    let c1 := RGB565_RGB color1
    match (List.range 4).foldlM (fillRow img width color0 color1 c0 c1 st.x_pos st.y_pos)
        (st.jpeg_buf, st.pData + 4) with
    | none => none
    | some (buf, pData) =>
      let x_pos := st.x_pos + 4
      if x_pos ≥ width then some ⟨buf, pData, 0, st.y_pos + 4⟩
      else some ⟨buf, pData, x_pos, st.y_pos⟩
  | _, _, _, _ => none

/-- The halving loop of `fill4BitImage`. -/
def halve (max_size new_w new_h : Nat) : Nat × Nat :=
  if new_w > max_size ∨ new_h > max_size then halve max_size (new_w / 2) (new_h / 2)
  else (new_w, new_h)
termination_by new_w + new_h
decreasing_by omega

/-- `fill4BitImage`, with `img` the bytes of the image (`getImageSizeInBytes`
is their number): the decoded `jpeg_buf` and the new `width` and `height`. -/
def fill4BitImage (jpeg_buf img : List Nat) (width height : Nat) :
    Option (List Nat × Nat × Nat) :=
  let jpeg_buf := vectorResize jpeg_buf (width * height * 3)
  let imgSize := img.length
  match (List.range ((imgSize + 7) / 8)).foldlM (fun st _ => fillBlock img width st)
      (⟨jpeg_buf, 0, 0, 0⟩ : FillState) with
  | none => none
  | some st =>
    let max_size := 2048
    if width > max_size ∨ height > max_size then
      let (new_w, new_h) := halve max_size width height
      match resizeImage st.jpeg_buf width height new_w new_h with
      | none => none
      | some buf => some (buf, new_w, new_h)
    else some (st.jpeg_buf, width, height)

/-- The colour the packed format gives pixel `(x, y)`: the block is
`(y/4)·(width/4) + x/4`, its endpoints are the little-endian 16-bit values at
bytes `8b` and `8b+2`, and the palette index is made of bits `2·(x mod 4)` and
`2·(x mod 4)+1` of byte `8b + 4 + (y mod 4)`. -/
def blockPixel (img : List Nat) (width x y : Nat) : Option Color :=
  let b := y / 4 * (width / 4) + x / 4
  match img[8 * b]?, img[8 * b + 1]?, img[8 * b + 2]?, img[8 * b + 3]?,
      img[8 * b + 4 + y % 4]? with
  | some a0, some a1, some b0, some b1, some byte =>
    let color0 := a0 + 256 * a1
    let color1 := b0 + 256 * b1
    Mix_Color color0 color1 (RGB565_RGB color0) (RGB565_RGB color1)
      ((byte / 2 ^ (2 * (x % 4)) % 4 : Nat) : Int)
  | _, _, _, _, _ => none

/-- Pixel `(x, y)` of an RGB raster of the given width has colour `c`. -/
def PixelIs (buf : List Nat) (width x y : Nat) (c : Color) : Prop :=
  buf[(x + y * width) * 3]? = some c.r ∧ buf[(x + y * width) * 3 + 1]? = some c.g ∧
    buf[(x + y * width) * 3 + 2]? = some c.b

/-- Every pixel of the set `S` inside the raster's width has, in `buf`, the
colour the packed format gives it. -/
def DecodedOn (img : List Nat) (width : Nat) (buf : List Nat) (S : Nat → Nat → Prop) : Prop :=
  ∀ x y, x < width → S x y → ∃ c, blockPixel img width x y = some c ∧ PixelIs buf width x y c

/-- A 4×4 image of one block: endpoints 63519 and 2016, first row of indices
0, 1, 2, 3, the other rows of index 0. -/
def exampleBlock : List Nat := [31, 248, 224, 7, 228, 0, 0, 0]

/-- An RGB raster of width 32768 and height 32768, all zero: `32768·32768·3`
bytes. -/
def hugeRaster : List Nat := List.replicate 3221225472 0

/-- The bytes of a packed image of width 4 and height 8196, all zero:
`4·8196/2` bytes. -/
def narrowImage : List Nat := List.replicate 16392 0

/-- The bytes of a packed image of width 12 and height 8196, all zero:
`12·8196/2` bytes. -/
def slimImage : List Nat := List.replicate 49176 0

end internal

namespace scially

/-! ## Discovery of the tile tree -/

/-- A `PagedLOD` node, by its file names `getFileName(0)`, `getFileName(1)`,
... -/
structure PagedLOD where
  fileNames : List QString

/-- `OSGBPageLodVisitor::apply(osg::PagedLOD&)` on the list `subNodeNames`:
the file names from index 1 on are appended, each prefixed by `path` and a
slash. -/
def applyPagedLOD (path : QString) (subNodeNames : List QString) (node : PagedLOD) :
    List QString :=
  subNodeNames ++ (node.fileNames.drop 1).map (fun fileName => path ++ '/' :: fileName)

/-- The `subNodeNames` of a visitor after `root->accept(lodVisitor)`, for a
scene given by its `PagedLOD` nodes in the order of the traversal. -/
def subNodeNames (path : QString) (root : List PagedLOD) : List QString :=
  root.foldl (applyPagedLOD path) []

namespace OSGBLevel

end OSGBLevel

/-- The identity of an `osg::Texture` object. -/
abbrev Texture := Nat

/-- An `osg::Geometry` as the visitor and `convertGLB` see it: the data size
of its vertex array (`none` without a vertex array), its number of primitive
sets, and the texture attribute 0 of its state set (`none` without a state
set or without a texture there). -/
structure Geometry where
  vertexDataSize : Option Nat
  numPrimitiveSets : Nat
  texture : Option Texture
deriving DecidableEq

/-- The part of a `tinygltf::Primitive` that the loop changes: its
`material`, -1 when unset. -/
structure Primitive where
  material : Int
deriving DecidableEq

/-- The accumulators of an `OSGBPageLodVisitor` for geometries; the map
`textureMap` is given by the value stored for each key (`none` for a key that
is absent or holds a null pointer). -/
structure OSGBPageLodVisitor where
  geometryArray : List Geometry
  textureArray : List Texture
  textureMap : Geometry → Option Texture

namespace OSGBPageLodVisitor

/-- Modelled from the spec: the container type of `textureArray` is declared
in the header, which is not part of the sources; §4.3 step 3 gives it as a
deduplicated sequence in order of first insertion. This is its `insert`. -/
def insertTexture (textureArray : List Texture) (tex : Texture) : List Texture :=
  if tex ∈ textureArray then textureArray else textureArray ++ [tex]

/-- `textureMap[&geometry] = tex`. -/
def setTexture (textureMap : Geometry → Option Texture) (g : Geometry) (tex : Texture) :
    Geometry → Option Texture :=
  fun key => if key = g then some tex else textureMap key

/-- `OSGBPageLodVisitor::apply(osg::Geometry&)`. -/
def applyGeometry (v : OSGBPageLodVisitor) (geometry : Geometry) : OSGBPageLodVisitor :=
  let geometryArray := v.geometryArray ++ [geometry]
  match geometry.texture with
  | some tex => ⟨geometryArray, insertTexture v.textureArray tex, setTexture v.textureMap geometry tex⟩
  | none => ⟨geometryArray, v.textureArray, v.textureMap⟩

/-- The visitor after the traversal of a scene whose geometries are met in
the given order. -/
def visit (geometries : List Geometry) : OSGBPageLodVisitor :=
  geometries.foldl applyGeometry ⟨[], [], fun _ => none⟩

end OSGBPageLodVisitor

/-- Modelled from the spec: `OSGBuildState::appendOSGGeometry` is defined
outside the sources; it emits one primitive per primitive set of the geometry,
each with its material unset (-1). -/
def appendOSGGeometry (primitives : List Primitive) (g : Geometry) : List Primitive :=
  primitives ++ List.replicate g.numPrimitiveSets ⟨-1⟩

/-- The loop over `textureArray` for one primitive: `material++` for each
texture until the texture `tex` is met. -/
def countMaterial (tex : Texture) : List Texture → Int → Int
  | [], material => material
  | texture :: rest, material =>
    if tex = texture then material + 1 else countMaterial tex rest (material + 1)

/-- The body of the loop over the primitive sets of `g`: the pair is the
primitives of mesh 0 and `primitiveIdx`; `none` when `primitiveIdx` is not an
index of the primitives. -/
def updatePrimitive (v : OSGBPageLodVisitor) (g : Geometry) (st : List Primitive × Nat)
    (k : Nat) : Option (List Primitive × Nat) :=
  match v.textureMap g with
  | some tex =>
    match st.1[st.2]? with
    | some p => some (st.1.set st.2 ⟨countMaterial tex v.textureArray p.material⟩, st.2 + 1)
    | none => none
  | none => some (st.1, st.2 + 1)

/-- The body of the loop over `geometryArray` in `convertGLB`. -/
def meshStep (v : OSGBPageLodVisitor) (st : List Primitive × Nat) (g : Geometry) :
    Option (List Primitive × Nat) :=
  if g.vertexDataSize = none ∨ g.vertexDataSize = some 0 then some st
  else
    let primitives := appendOSGGeometry st.1 g
    if v.textureArray.length ≠ 0 then
      (List.range g.numPrimitiveSets).foldlM (updatePrimitive v g) (primitives, st.2)
    else some (primitives, st.2)

/-- The loop over `geometryArray` in `convertGLB`, from no primitives and
`primitiveIdx = 0`. -/
def meshLoop (v : OSGBPageLodVisitor) : Option (List Primitive × Nat) :=
  v.geometryArray.foldlM (meshStep v) ([], 0)

/-- A geometry is consumed when it has a vertex array with data. -/
def Geometry.consumed (g : Geometry) : Bool :=
  !(g.vertexDataSize = none ∨ g.vertexDataSize = some 0)

/-- The material index the texture sequence gives a geometry: the position
of the first occurrence of its texture, -1 without a texture. -/
def materialIndex (textureArray : List Texture) (g : Geometry) : Int :=
  match g.texture with
  | some tex => (textureArray.indexOf tex : Nat)
  | none => -1

/-- The primitives a geometry contributes to mesh 0: none when it is not
consumed, otherwise one per primitive set, each with the material index of the
geometry. -/
def geometryPrimitives (textureArray : List Texture) (g : Geometry) : List Primitive :=
  if g.consumed then List.replicate g.numPrimitiveSets ⟨materialIndex textureArray g⟩ else []

/-- Geometries of a tile: a textured triangle strip of two primitive sets,
an empty geometry, an untextured one, and two more textured ones. -/
def exampleGeometries : List Geometry :=
  [⟨some 9, 2, some 70⟩, ⟨some 0, 1, some 71⟩, ⟨some 3, 1, none⟩, ⟨some 6, 1, some 80⟩,
    ⟨some 12, 1, some 70⟩]

/-! ## Plain images in `convertGLB` -/

/-- `jpegBuffer.insert(jpegBuffer.end(), data + first, data + last)`: the
bytes of `data` from `first` up to `last` are appended; `none` when the range
is reversed or leaves the image. -/
def insertRange (jpegBuffer data : List Nat) (first last : Nat) : Option (List Nat) :=
  if first ≤ last ∧ last ≤ data.length then
    some (jpegBuffer ++ (data.drop first).take (last - first))
  else none

/-- The row loop of `convertGLB` for a plain image: row `i` is inserted from
`data + rowStep * i` up to `data + rowSize * i + rowSize`. -/
def copyRows (data : List Nat) (rowStep rowSize height : Nat) : Option (List Nat) :=
  (List.range height).foldlM
    (fun jpegBuffer i => insertRange jpegBuffer data (rowStep * i) (rowSize * i + rowSize)) []

/-- The payload of a plain image: for each row `i`, the `rowSize` bytes from
offset `rowStep * i`. -/
def rowPayload (data : List Nat) (rowStep rowSize height : Nat) : List Nat :=
  (List.range height).flatMap (fun i => (data.drop (rowStep * i)).take rowSize)

/-- Two rows of three payload bytes, each followed by one padding byte. -/
def paddedRows : List Nat := [1, 2, 3, 0, 4, 5, 6, 0]

/-! ## Example inputs -/

/-- The unit cube. -/
def unitBox : BoundingVolumeBox := ⟨⟨0, 0, 0⟩, ⟨1, 1, 1⟩⟩

/-- A box outside the unit cube. -/
def farBox : BoundingVolumeBox := ⟨⟨2, 2, 2⟩, ⟨3, 5, 4⟩⟩

/-- A converter that yields a one-byte container and the given region. -/
def goodConvert (region : BoundingVolumeBox) : OSGBConvert := ⟨[1], fun _ => true, region⟩

/-- A converter whose tile has only empty geometries: `toB3DM` returns an
empty buffer. -/
def emptyConvert : OSGBConvert := ⟨[], fun _ => true, unitBox⟩

/-- Surroundings in which the tile `d/bad.osgb` has only empty geometries
and the tile `d/good.osgb` lies in `farBox`. -/
def exampleEnv (absentValue : Option BoundingVolumeBox) : Env where
  OSGBEXTENSION := ".osgb".toList
  B3DMEXTENSION := ".b3dm".toList
  absolutePath := id
  convert := fun loc =>
    if loc = "d/bad.osgb".toList then emptyConvert
    else if loc = "d/good.osgb".toList then goodConvert farBox
    else goodConvert unitBox
  absentValue := absentValue

/-- A root tile with the children `bad` and `good`. -/
def twoChildren : OSGBLevel :=
  .mk "root".toList "d".toList [.mk "bad".toList "d".toList [], .mk "good".toList "d".toList []]

/-- A tileset node without children whose box is the unit cube. -/
def leafTile : RootTile := .mk none (some unitBox) 0 [] []

/-- A tileset node whose only child is `leafTile`. -/
def parentTile : RootTile := .mk none (some unitBox) 0 [] [leafTile]

/-- A stand-in for `BoundingVolumeBox::geometricError()`: the extent of the
box along x. -/
def extentX (b : BoundingVolumeBox) : ℚ := b.max.x - b.min.x

/-- A root tile with the only child `good`. -/
def oneChild : OSGBLevel :=
  .mk "root".toList "d".toList [.mk "good".toList "d".toList []]

/-! # Theorems -/

/-! ## Children of a converted tile -/

/-- C1, evaluated on the code: the root `twoChildren` has a first child whose
conversion fails (empty container, result `false`) and a second child that
converts. The result of the failed child is not looked at: when `value()`
throws on the absent box of that child the whole conversion is abandoned, and
when it yields some box the failed child is the first of two children of the
result. -/
theorem convertTiles_failed_child_kept :
    (∀ av, OSGBLevel.convertTiles (exampleEnv av) "out".toList
      (.mk "bad".toList "d".toList []) RootTile.fresh = some (false, RootTile.fresh)) ∧
    (∀ av, ∃ good, OSGBLevel.convertTiles (exampleEnv av) "out".toList
      (.mk "good".toList "d".toList []) RootTile.fresh = some (true, good)) ∧
    OSGBLevel.convertTiles (exampleEnv none) "out".toList twoChildren RootTile.fresh = none ∧
    ∀ b : BoundingVolumeBox, ∃ t good,
      OSGBLevel.convertTiles (exampleEnv (some b)) "out".toList twoChildren RootTile.fresh
        = some (true, t) ∧
      t.children = [RootTile.fresh, good] := by
  refine ⟨fun av => by rfl, fun av => ⟨_, rfl⟩, by rfl, fun b => ?_⟩
  exact ⟨_, _, rfl, rfl⟩

/-! ## Bounding volumes of converted tiles -/

theorem Vec3.le_refl (a : Vec3) : Vec3.le a a := ⟨le_rfl, le_rfl, le_rfl⟩

theorem Vec3.le_trans {a b c : Vec3} (h1 : Vec3.le a b) (h2 : Vec3.le b c) : Vec3.le a c :=
  ⟨h1.1.trans h2.1, h1.2.1.trans h2.2.1, h1.2.2.trans h2.2.2⟩

theorem BoundingVolumeBox.contains_refl (a : BoundingVolumeBox) : a.contains a :=
  ⟨Vec3.le_refl _, Vec3.le_refl _⟩

theorem BoundingVolumeBox.contains_trans {a b c : BoundingVolumeBox}
    (h1 : a.contains b) (h2 : b.contains c) : a.contains c :=
  ⟨Vec3.le_trans h1.1 h2.1, Vec3.le_trans h2.2 h1.2⟩

theorem BoundingVolumeBox.merge_contains_left (a b : BoundingVolumeBox) :
    (a.merge b).contains a :=
  ⟨⟨min_le_left _ _, min_le_left _ _, min_le_left _ _⟩,
   ⟨le_max_left _ _, le_max_left _ _, le_max_left _ _⟩⟩

theorem BoundingVolumeBox.merge_contains_right (a b : BoundingVolumeBox) :
    (a.merge b).contains b :=
  ⟨⟨min_le_right _ _, min_le_right _ _, min_le_right _ _⟩,
   ⟨le_max_right _ _, le_max_right _ _, le_max_right _ _⟩⟩

theorem foldl_merge_contains_init (l : List BoundingVolumeBox) (a : BoundingVolumeBox) :
    (l.foldl BoundingVolumeBox.merge a).contains a := by
  induction l generalizing a with
  | nil => exact BoundingVolumeBox.contains_refl a
  | cons b l ih =>
    exact BoundingVolumeBox.contains_trans (ih (a.merge b)) (BoundingVolumeBox.merge_contains_left a b)

theorem foldl_merge_contains_mem (l : List BoundingVolumeBox) (a b : BoundingVolumeBox)
    (hb : b ∈ l) : (l.foldl BoundingVolumeBox.merge a).contains b := by
  induction l generalizing a with
  | nil => cases hb
  | cons c l ih =>
    rcases List.mem_cons.mp hb with h | h
    · subst h
      exact BoundingVolumeBox.contains_trans (foldl_merge_contains_init l (a.merge b))
        (BoundingVolumeBox.merge_contains_right a b)
    · exact ih (a.merge c) h

@[simp] theorem RootTile.boundingVolume_mk (c : Option ContentTile) (b : Option BoundingVolumeBox)
    (e : ℚ) (r : QString) (cs : List RootTile) : (RootTile.mk c b e r cs).boundingVolume = b := rfl

@[simp] theorem RootTile.children_mk (c : Option ContentTile) (b : Option BoundingVolumeBox)
    (e : ℚ) (r : QString) (cs : List RootTile) : (RootTile.mk c b e r cs).children = cs := rfl

@[simp] theorem RootTile.content_mk (c : Option ContentTile) (b : Option BoundingVolumeBox)
    (e : ℚ) (r : QString) (cs : List RootTile) : (RootTile.mk c b e r cs).content = c := rfl

@[simp] theorem RootTile.geometricError_mk (c : Option ContentTile)
    (b : Option BoundingVolumeBox) (e : ℚ) (r : QString) (cs : List RootTile) :
    (RootTile.mk c b e r cs).geometricError = e := rfl

theorem mergeVolumes_append_single (own : BoundingVolumeBox) (ts : List RootTile) (t : RootTile)
    (b : BoundingVolumeBox) (hb : t.boundingVolume = some b) :
    mergeVolumes own (ts ++ [t]) = (mergeVolumes own ts).merge b := by
  simp [mergeVolumes, List.filterMap_append, hb, List.foldl_append]

theorem OSGBLevel.builtTile_boundingVolume (env : Env) (l : OSGBLevel) :
    (OSGBLevel.builtTile env l).boundingVolume =
      some (mergeVolumes (OSGBLevel.localBox env l) (OSGBLevel.builtTile env l).children) := by
  cases l with
  | mk n p subs => simp [OSGBLevel.builtTile, RootTile.boundingVolume, RootTile.children]

theorem OSGBLevel.builtTile_children (env : Env) (n p : QString) (subs : List OSGBLevel) :
    (OSGBLevel.builtTile env (.mk n p subs)).children = OSGBLevel.builtTiles env subs := by
  simp [OSGBLevel.builtTile, RootTile.children]

theorem OSGBLevel.builtTile_contentBox (env : Env) (l : OSGBLevel) :
    (OSGBLevel.builtTile env l).contentBox = some (OSGBLevel.localBox env l) := by
  cases l with
  | mk n p subs => simp [OSGBLevel.builtTile, RootTile.contentBox, RootTile.content]

mutual
theorem OSGBLevel.convertTiles_eq_builtTile (env : Env) (output : QString) :
    ∀ (l : OSGBLevel), OSGBLevel.allBuild env output l = true →
      OSGBLevel.convertTiles env output l RootTile.fresh
        = some (true, OSGBLevel.builtTile env l)
  | .mk n p subs, h => by
    simp only [OSGBLevel.allBuild, Bool.and_eq_true, Bool.not_eq_true',
      List.isEmpty_eq_false] at h
    obtain ⟨⟨h1, h2⟩, h3⟩ := h
    have hloop := OSGBLevel.convertTilesLoop_eq env output subs
      ((RootTile.fresh.setRefineContent "REPLACE".toList
        ⟨'.' :: '/' :: n ++ env.B3DMEXTENSION,
          some (OSGBLevel.localBox env (.mk n p subs))⟩).setBoundingVolume
        (OSGBLevel.localBox env (.mk n p subs)))
      (OSGBLevel.localBox env (.mk n p subs)) [] h3 rfl rfl
    rw [OSGBLevel.convertTiles]
    simp only [OSGBLevel.localBox] at hloop
    simp only [h2, List.isEmpty_eq_true, h1, if_false, if_true, hloop]
    simp [OSGBLevel.builtTile, RootTile.fresh, RootTile.setRefineContent,
      RootTile.setBoundingVolume, RootTile.setChildren, OSGBLevel.localBox]
theorem OSGBLevel.convertTilesLoop_eq (env : Env) (output : QString) :
    ∀ (subs : List OSGBLevel) (root : RootTile) (own : BoundingVolumeBox) (done : List RootTile),
      OSGBLevel.allBuildList env output subs = true →
      root.boundingVolume = some (mergeVolumes own done) → root.children = done →
      OSGBLevel.convertTilesLoop env output subs root =
        some (true, (root.setChildren (done ++ OSGBLevel.builtTiles env subs)).setBoundingVolume
          (mergeVolumes own (done ++ OSGBLevel.builtTiles env subs)))
  | [], root, own, done, _, hb, hc => by
    cases root with
    | mk c b e r cs =>
      simp only [RootTile.boundingVolume_mk, RootTile.children_mk] at hb hc
      simp [OSGBLevel.convertTilesLoop, OSGBLevel.builtTiles, RootTile.setChildren,
        RootTile.setBoundingVolume, hb, hc]
  | s :: rest, root, own, done, h, hb, hc => by
    simp only [OSGBLevel.allBuildList, Bool.and_eq_true] at h
    have hs := OSGBLevel.convertTiles_eq_builtTile env output s h.1
    cases root with
    | mk c b e r cs =>
      simp only [RootTile.boundingVolume_mk, RootTile.children_mk] at hb hc
      subst hb hc
      have hrest := OSGBLevel.convertTilesLoop_eq env output rest
        (RootTile.mk c (some ((mergeVolumes own cs).merge
          (mergeVolumes (OSGBLevel.localBox env s) (OSGBLevel.builtTile env s).children))) e r
          (cs ++ [OSGBLevel.builtTile env s])) own (cs ++ [OSGBLevel.builtTile env s]) h.2
        (by
          rw [mergeVolumes_append_single own cs _ _ (OSGBLevel.builtTile_boundingVolume env s)]
          rfl) rfl
      rw [OSGBLevel.convertTilesLoop, hs]
      simp only [RootTile.appendChild, RootTile.boundingVolume_mk,
        OSGBLevel.builtTile_boundingVolume, RootTile.setBoundingVolume]
      simp [hrest, OSGBLevel.builtTiles, RootTile.setChildren, RootTile.setBoundingVolume]
end

theorem RootTile.self_mem_nodes (t : RootTile) : t ∈ t.nodes := by
  cases t with
  | mk c b e r cs => simp [RootTile.nodes]

theorem RootTile.mem_nodesList {d : RootTile} :
    ∀ {ts : List RootTile}, d ∈ RootTile.nodesList ts ↔ ∃ t ∈ ts, d ∈ t.nodes
  | [] => by simp [RootTile.nodesList]
  | t :: ts => by
    simp only [RootTile.nodesList, List.mem_append, List.mem_cons, exists_eq_or_imp]
    rw [RootTile.mem_nodesList]

theorem RootTile.mem_nodes_iff (d t : RootTile) :
    d ∈ t.nodes ↔ d = t ∨ ∃ c ∈ t.children, d ∈ c.nodes := by
  cases t with
  | mk c b e r cs =>
    simp only [RootTile.nodes, List.mem_cons, RootTile.children_mk, RootTile.mem_nodesList]

theorem RootTile.nodeOK_of_children (n : RootTile) (own : BoundingVolumeBox)
    (hown : n.contentBox = some own)
    (hvol : n.boundingVolume = some (mergeVolumes own n.children))
    (hch : ∀ c ∈ n.children, (∃ b, c.boundingVolume = some b) ∧ ∀ m ∈ c.nodes, m.NodeOK) :
    ∀ m ∈ n.nodes, m.NodeOK := by
  have hencl : n.EnclosesChildren := by
    intro c hc
    obtain ⟨⟨cb, hcb⟩, _⟩ := hch c hc
    refine ⟨_, cb, hvol, hcb, ?_⟩
    exact foldl_merge_contains_mem _ own cb (List.mem_filterMap.mpr ⟨c, hc, hcb⟩)
  intro m hm
  rcases (RootTile.mem_nodes_iff m n).mp hm with rfl | ⟨c, hc, hmc⟩
  · refine ⟨⟨own, hown, hvol, ?_⟩, hencl, ?_⟩
    · intro c hc hnone
      obtain ⟨⟨cb, hcb⟩, _⟩ := hch c hc
      rw [hcb] at hnone
      cases hnone
    · intro d hd
      rcases (RootTile.mem_nodes_iff d m).mp hd with rfl | ⟨c, hc, hdc⟩
      · exact ⟨_, own, hvol, hown, foldl_merge_contains_init _ own⟩
      · obtain ⟨pb, cb, hpb, hcb, hcont⟩ := hencl c hc
        obtain ⟨_, _, hcc⟩ := (hch c hc).2 c c.self_mem_nodes
        obtain ⟨pb2, db, hpb2, hdb, hcont2⟩ := hcc d hdc
        rw [hcb] at hpb2
        cases hpb2
        exact ⟨pb, db, hpb, hdb, BoundingVolumeBox.contains_trans hcont hcont2⟩
  · exact (hch c hc).2 m hmc

mutual
theorem OSGBLevel.builtTile_nodeOK (env : Env) :
    ∀ (l : OSGBLevel), ∀ m ∈ (OSGBLevel.builtTile env l).nodes, m.NodeOK
  | .mk n p subs => by
    apply RootTile.nodeOK_of_children _ (OSGBLevel.localBox env (.mk n p subs))
      (OSGBLevel.builtTile_contentBox env _) (OSGBLevel.builtTile_boundingVolume env _)
    rw [OSGBLevel.builtTile_children]
    exact OSGBLevel.builtTiles_nodeOK env subs
theorem OSGBLevel.builtTiles_nodeOK (env : Env) :
    ∀ (subs : List OSGBLevel), ∀ c ∈ OSGBLevel.builtTiles env subs,
      (∃ b, c.boundingVolume = some b) ∧ ∀ m ∈ c.nodes, m.NodeOK
  | [] => by simp [OSGBLevel.builtTiles]
  | s :: rest => by
    intro c hc
    simp only [OSGBLevel.builtTiles, List.mem_cons] at hc
    rcases hc with rfl | hc
    · exact ⟨⟨_, OSGBLevel.builtTile_boundingVolume env s⟩, OSGBLevel.builtTile_nodeOK env s⟩
    · exact OSGBLevel.builtTiles_nodeOK env rest c hc
end

mutual
theorem OSGBLevel.builtTile_corresponds (env : Env) :
    ∀ (l : OSGBLevel), OSGBLevel.Corresponds env l (OSGBLevel.builtTile env l)
  | .mk n p subs => by
    rw [OSGBLevel.Corresponds]
    exact ⟨OSGBLevel.builtTile_contentBox env _, by
      rw [OSGBLevel.builtTile_children]
      exact OSGBLevel.builtTiles_corresponds env subs⟩
theorem OSGBLevel.builtTiles_corresponds (env : Env) :
    ∀ (subs : List OSGBLevel),
      OSGBLevel.CorrespondsList env subs (OSGBLevel.builtTiles env subs)
  | [] => by simp [OSGBLevel.CorrespondsList, OSGBLevel.builtTiles]
  | s :: rest => by
    rw [OSGBLevel.CorrespondsList]
    exact ⟨_, _, by rw [OSGBLevel.builtTiles], OSGBLevel.builtTile_corresponds env s,
      OSGBLevel.builtTiles_corresponds env rest⟩
end

/-- C3: when every tile of a tree builds, `convertTiles` succeeds with a
tileset node made for the tree (same shape, content boxes equal to the local
boxes), and at every node of the result the published volume is the
left-to-right merge of the node's own box with the published volumes of its
children, contains the volume of each child, and contains the node's content
box and the content box of every descendant. -/
theorem convertTiles_volume_is_merge (env : Env) (output : QString) (l : OSGBLevel)
    (h : OSGBLevel.allBuild env output l = true) :
    ∃ t, OSGBLevel.convertTiles env output l RootTile.fresh = some (true, t) ∧
      OSGBLevel.Corresponds env l t ∧
      ∀ n ∈ t.nodes, n.VolumeIsMerge ∧ n.EnclosesChildren ∧ n.EnclosesContent :=
  ⟨OSGBLevel.builtTile env l, OSGBLevel.convertTiles_eq_builtTile env output l h,
    OSGBLevel.builtTile_corresponds env l, OSGBLevel.builtTile_nodeOK env l⟩

theorem convertTiles_volume_is_merge_witness :
    OSGBLevel.allBuild (exampleEnv none) "out".toList oneChild = true ∧
    ∃ t, OSGBLevel.convertTiles (exampleEnv none) "out".toList oneChild RootTile.fresh
        = some (true, t) ∧
      OSGBLevel.Corresponds (exampleEnv none) oneChild t ∧
      ∀ n ∈ t.nodes, n.VolumeIsMerge ∧ n.EnclosesChildren ∧ n.EnclosesContent :=
  ⟨by rfl, convertTiles_volume_is_merge (exampleEnv none) "out".toList oneChild (by rfl)⟩

/-! ## Geometric error of the tileset nodes -/

theorem updateGeometryError_parentTile :
    updateGeometryError extentX parentTile = some (.mk none (some unitBox) 2 [] [leafTile]) := by
  simp [updateGeometryError, parentTile, leafTile, updateGeometryErrorList, extentX, unitBox]

mutual
theorem updateGeometryError_spec (gerr : BoundingVolumeBox → ℚ) :
    ∀ (t : RootTile), (∀ n ∈ t.nodes, n.firstChildHasBox = true) →
      ∃ t1, updateGeometryError gerr t = some t1 ∧ t1.boundingVolume = t.boundingVolume ∧
        t1.eraseErrors = t.eraseErrors ∧ ∀ n ∈ t1.nodes, n.ErrorFromFirstChildBox gerr
  | .mk c b e r [], _ => by
    refine ⟨.mk c b 0 r [], by rw [updateGeometryError], rfl, by simp [RootTile.eraseErrors], ?_⟩
    intro n hn
    simp only [RootTile.nodes, RootTile.nodesList, List.mem_singleton] at hn
    subst hn
    exact ⟨fun _ => rfl, fun c cs h => by simp at h⟩
  | .mk c b e r (x :: xs), h => by
    have hx : ∀ n ∈ x.nodes, n.firstChildHasBox = true := fun n hn =>
      h n ((RootTile.mem_nodes_iff _ _).mpr (Or.inr ⟨x, by simp, hn⟩))
    have hxs : ∀ t ∈ xs, ∀ n ∈ t.nodes, n.firstChildHasBox = true := fun t ht n hn =>
      h n ((RootTile.mem_nodes_iff _ _).mpr (Or.inr ⟨t, by simp [ht], hn⟩))
    obtain ⟨x1, hx1, hbv, her, hok⟩ := updateGeometryError_spec gerr x hx
    obtain ⟨xs1, hxs1, hers, hoks⟩ := updateGeometryErrorList_spec gerr xs hxs
    have hroot := h _ (RootTile.self_mem_nodes _)
    simp only [RootTile.firstChildHasBox, RootTile.children_mk, Option.isSome_iff_exists] at hroot
    obtain ⟨box, hbox⟩ := hroot
    refine ⟨.mk c b (gerr box * 2) r (x1 :: xs1), ?_, rfl, ?_, ?_⟩
    · rw [updateGeometryError, hx1, hxs1]
      simp only [hbv, hbox]
    · simp only [RootTile.eraseErrors, RootTile.eraseErrorsList, her, hers]
    · intro n hn
      simp only [RootTile.nodes, RootTile.nodesList, List.mem_cons, List.mem_append] at hn
      rcases hn with rfl | hn | hn
      · refine ⟨fun hnil => by simp at hnil, fun c1 cs1 hc => ?_⟩
        simp only [RootTile.children_mk, List.cons.injEq] at hc
        obtain ⟨rfl, _⟩ := hc
        exact ⟨box, hbv.trans hbox, by simp [mul_comm]⟩
      · exact hok n hn
      · exact hoks n hn
theorem updateGeometryErrorList_spec (gerr : BoundingVolumeBox → ℚ) :
    ∀ (ts : List RootTile), (∀ t ∈ ts, ∀ n ∈ t.nodes, n.firstChildHasBox = true) →
      ∃ ts1, updateGeometryErrorList gerr ts = some ts1 ∧
        RootTile.eraseErrorsList ts1 = RootTile.eraseErrorsList ts ∧
        ∀ n ∈ RootTile.nodesList ts1, n.ErrorFromFirstChildBox gerr
  | [], _ => ⟨[], by rw [updateGeometryErrorList], rfl, by simp [RootTile.nodesList]⟩
  | x :: xs, h => by
    obtain ⟨x1, hx1, _, her, hok⟩ := updateGeometryError_spec gerr x (h x (by simp))
    obtain ⟨xs1, hxs1, hers, hoks⟩ :=
      updateGeometryErrorList_spec gerr xs (fun t ht => h t (by simp [ht]))
    refine ⟨x1 :: xs1, by rw [updateGeometryErrorList, hx1, hxs1], ?_, ?_⟩
    · simp only [RootTile.eraseErrorsList, her, hers]
    · intro n hn
      simp only [RootTile.nodesList, List.mem_append] at hn
      rcases hn with hn | hn
      · exact hok n hn
      · exact hoks n hn
end

/-- C2 as stated fails: with the x-extent as the box's geometric error, the
parent of a leaf whose box is the unit cube gets error 2, whereas the leaf
itself gets error 0, so the parent's error is not twice the error assigned to
its first child. -/
theorem updateGeometryError_not_twice_child_error :
    ∃ t1, updateGeometryError extentX parentTile = some t1 ∧
      ¬ ∀ n ∈ t1.nodes, n.ErrorFromFirstChildError := by
  refine ⟨_, updateGeometryError_parentTile, fun h => ?_⟩
  have h1 := (h _ (RootTile.self_mem_nodes _)).2 leafTile [] rfl
  simp [leafTile] at h1

/-- C2, amended: on a tree in which every first child carries a bounding
box, `updateGeometryError` returns the same tree up to the geometric errors
(same boxes, contents and children), and in the result every node without
children has `geometricError` 0 and every node with a child has
`geometricError` twice the value `BoundingVolumeBox::geometricError()` computes
from the bounding box of its first child, whatever the other children are. -/
theorem updateGeometryError_first_child_box (gerr : BoundingVolumeBox → ℚ) (t : RootTile)
    (h : ∀ n ∈ t.nodes, n.firstChildHasBox = true) :
    ∃ t1, updateGeometryError gerr t = some t1 ∧ t1.eraseErrors = t.eraseErrors ∧
      ∀ n ∈ t1.nodes, n.ErrorFromFirstChildBox gerr := by
  obtain ⟨t1, h1, _, h2, h3⟩ := updateGeometryError_spec gerr t h
  exact ⟨t1, h1, h2, h3⟩

theorem updateGeometryError_first_child_box_witness :
    (∀ n ∈ parentTile.nodes, n.firstChildHasBox = true) ∧
    ∃ t1, updateGeometryError extentX parentTile = some t1 ∧
      t1.eraseErrors = parentTile.eraseErrors ∧
      ∀ n ∈ t1.nodes, n.ErrorFromFirstChildBox extentX :=
  ⟨by simp [parentTile, leafTile, RootTile.nodes, RootTile.nodesList, RootTile.firstChildHasBox],
   updateGeometryError_first_child_box extentX parentTile
    (by simp [parentTile, leafTile, RootTile.nodes, RootTile.nodesList,
      RootTile.firstChildHasBox])⟩

end scially

namespace internal

/-! ## Colours of a packed block -/

theorem RGB565_RGB_eq (color : Nat) (h : color < 65536) :
    RGB565_RGB color = rgb565Channels color := by
  have h31 : ∀ x : Nat, x &&& 31 = x % 32 := fun x => Nat.and_pow_two_sub_one_eq_mod x 5
  have h63 : ∀ x : Nat, x &&& 63 = x % 64 := fun x => Nat.and_pow_two_sub_one_eq_mod x 6
  simp only [RGB565_RGB, rgb565Channels, h31, h63, Nat.shiftRight_eq_div_pow, Nat.shiftLeft_eq]
  simp only [Color.mk.injEq]
  refine ⟨?_, ?_, ?_⟩ <;> omega

/-- C4: for 16-bit values `color0`, `color1` the expansion `RGB565_RGB` gives
the top 5, middle 6 and low 5 bits scaled by 8, 4 and 8; with `c0`, `c1` the
expansions, `Mix_Color` returns `c0` for index 0 and `c1` for index 1, and for
indices 2 and 3 the channelwise `(2·c0+c1)/3` and `(c0+2·c1)/3` when
`color0 > color1`, otherwise `(c0+c1)/2` and black. -/
theorem Mix_Color_palette (color0 color1 : Nat) (h0 : color0 < 65536) (h1 : color1 < 65536) :
    RGB565_RGB color0 = rgb565Channels color0 ∧
    RGB565_RGB color1 = rgb565Channels color1 ∧
    Mix_Color color0 color1 (RGB565_RGB color0) (RGB565_RGB color1) 0
      = some (RGB565_RGB color0) ∧
    Mix_Color color0 color1 (RGB565_RGB color0) (RGB565_RGB color1) 1
      = some (RGB565_RGB color1) ∧
    (color0 > color1 →
      Mix_Color color0 color1 (RGB565_RGB color0) (RGB565_RGB color1) 2
        = some ⟨(2 * (RGB565_RGB color0).r + (RGB565_RGB color1).r) / 3,
                (2 * (RGB565_RGB color0).g + (RGB565_RGB color1).g) / 3,
                (2 * (RGB565_RGB color0).b + (RGB565_RGB color1).b) / 3⟩ ∧
      Mix_Color color0 color1 (RGB565_RGB color0) (RGB565_RGB color1) 3
        = some ⟨((RGB565_RGB color0).r + 2 * (RGB565_RGB color1).r) / 3,
                ((RGB565_RGB color0).g + 2 * (RGB565_RGB color1).g) / 3,
                ((RGB565_RGB color0).b + 2 * (RGB565_RGB color1).b) / 3⟩) ∧
    (¬ color0 > color1 →
      Mix_Color color0 color1 (RGB565_RGB color0) (RGB565_RGB color1) 2
        = some ⟨((RGB565_RGB color0).r + (RGB565_RGB color1).r) / 2,
                ((RGB565_RGB color0).g + (RGB565_RGB color1).g) / 2,
                ((RGB565_RGB color0).b + (RGB565_RGB color1).b) / 2⟩ ∧
      Mix_Color color0 color1 (RGB565_RGB color0) (RGB565_RGB color1) 3 = some ⟨0, 0, 0⟩) := by
  refine ⟨RGB565_RGB_eq color0 h0, RGB565_RGB_eq color1 h1, ?_, ?_, ?_, ?_⟩
  · unfold Mix_Color
    split <;> simp
  · unfold Mix_Color
    split <;> simp
  · intro h
    simp [Mix_Color, h]
  · intro h
    simp [Mix_Color, h]

theorem Mix_Color_palette_witness :
    63519 < 65536 ∧ 2016 < 65536 ∧ 63519 > 2016 ∧
    RGB565_RGB 63519 = ⟨248, 0, 248⟩ ∧ RGB565_RGB 2016 = ⟨0, 252, 0⟩ ∧
    Mix_Color 63519 2016 (RGB565_RGB 63519) (RGB565_RGB 2016) 2 = some ⟨165, 84, 165⟩ ∧
    Mix_Color 63519 2016 (RGB565_RGB 63519) (RGB565_RGB 2016) 3 = some ⟨82, 168, 82⟩ :=
  ⟨by decide, by decide, by decide,
    (Mix_Color_palette 63519 2016 (by decide) (by decide)).1.trans (by decide),
    (Mix_Color_palette 63519 2016 (by decide) (by decide)).2.1.trans (by decide),
    ((Mix_Color_palette 63519 2016 (by decide) (by decide)).2.2.2.2.1 (by decide)).1.trans
      (by decide),
    ((Mix_Color_palette 63519 2016 (by decide) (by decide)).2.2.2.2.1 (by decide)).2.trans
      (by decide)⟩

/-! ## Loops over a range -/

theorem foldlM_range_invariant {β : Type} (f : β → Nat → Option β) (I : Nat → β → Prop)
    (n : Nat) (b0 : β) (h0 : I 0 b0)
    (hstep : ∀ k b, k < n → I k b → ∃ b1, f b k = some b1 ∧ I (k + 1) b1) :
    ∃ b1, (List.range n).foldlM f b0 = some b1 ∧ I n b1 := by
  induction n with
  | zero => exact ⟨b0, rfl, h0⟩
  | succ n ih =>
    obtain ⟨b1, hb1, hI⟩ := ih (fun k b hk hb => hstep k b (Nat.lt_succ_of_lt hk) hb)
    obtain ⟨b2, hb2, hI2⟩ := hstep n b1 (Nat.lt_succ_self n) hI
    refine ⟨b2, ?_, hI2⟩
    rw [List.range_succ, List.foldlM_append, hb1]
    simp [hb2]

/-! ## Decoding of the packed blocks -/

theorem pixel_index_inj {w x y x1 y1 : Nat} (hx : x < w) (hx1 : x1 < w)
    (h : x + y * w = x1 + y1 * w) : x = x1 ∧ y = y1 := by
  have hw : 0 < w := by omega
  have h1 := congrArg (· % w) h
  have h2 := congrArg (· / w) h
  simp only [Nat.add_mul_mod_self_right, Nat.mod_eq_of_lt hx, Nat.mod_eq_of_lt hx1] at h1
  simp only [Nat.add_mul_div_right _ _ hw, Nat.div_eq_of_lt hx, Nat.div_eq_of_lt hx1,
    Nat.zero_add] at h2
  exact ⟨h1, h2⟩

theorem pixel_index_lt {w h x y : Nat} (hx : x < w) (hy : y < h) :
    (x + y * w) * 3 + 2 < w * h * 3 := by
  have h1 : (y + 1) * w ≤ h * w := Nat.mul_le_mul_right w hy
  have h2 : (y + 1) * w = y * w + w := by ring
  have h3 : w * h = h * w := Nat.mul_comm w h
  omega

theorem writePixel_decoded (img : List Nat) (w h : Nat) (buf : List Nat)
    (S : Nat → Nat → Prop) (x0 y0 : Nat) (cf : Color)
    (hlen : buf.length = w * h * 3) (hS : DecodedOn img w buf S)
    (hx0 : x0 < w) (hy0 : y0 < h) (hcf : blockPixel img w x0 y0 = some cf)
    (hr : cf.r < 256) (hg : cf.g < 256) (hb : cf.b < 256) :
    ∃ out, writePixel buf ((x0 + y0 * w) * 3) cf = some out ∧ out.length = w * h * 3 ∧
      DecodedOn img w out (fun x y => S x y ∨ (x = x0 ∧ y = y0)) := by
  have hlt := pixel_index_lt hx0 hy0
  refine ⟨_, by rw [writePixel, if_pos (by omega)], by simp [hlen], ?_⟩
  intro x y hx hxy
  by_cases hsame : x = x0 ∧ y = y0
  · obtain ⟨rfl, rfl⟩ := hsame
    refine ⟨cf, hcf, ?_, ?_, ?_⟩
    · simp only [List.getElem?_set, List.length_set]
      simp [Nat.mod_eq_of_lt hr]
      omega
    · simp only [List.getElem?_set, List.length_set]
      simp [Nat.mod_eq_of_lt hg]
      omega
    · simp only [List.getElem?_set, List.length_set]
      simp [Nat.mod_eq_of_lt hb]
      omega
  · have hS1 : S x y := by
      rcases hxy with h1 | h1
      · exact h1
      · exact absurd h1 hsame
    obtain ⟨c, hc, h1, h2, h3⟩ := hS x y hx hS1
    have hne : x + y * w ≠ x0 + y0 * w := fun he => hsame (pixel_index_inj hx hx0 he)
    refine ⟨c, hc, ?_, ?_, ?_⟩
    · rw [List.getElem?_set_ne (by omega), List.getElem?_set_ne (by omega),
        List.getElem?_set_ne (by omega)]
      exact h1
    · rw [List.getElem?_set_ne (by omega), List.getElem?_set_ne (by omega),
        List.getElem?_set_ne (by omega)]
      exact h2
    · rw [List.getElem?_set_ne (by omega), List.getElem?_set_ne (by omega),
        List.getElem?_set_ne (by omega)]
      exact h3

theorem RGB565_RGB_lt (color : Nat) :
    (RGB565_RGB color).r < 256 ∧ (RGB565_RGB color).g < 256 ∧ (RGB565_RGB color).b < 256 := by
  simp only [RGB565_RGB]
  exact ⟨Nat.mod_lt _ (by decide), Nat.mod_lt _ (by decide), Nat.mod_lt _ (by decide)⟩

theorem Mix_Color_some (color0 color1 : Nat) (c0 c1 : Color) (k : Nat) (hk : k < 4)
    (h0 : c0.r < 256 ∧ c0.g < 256 ∧ c0.b < 256) (h1 : c1.r < 256 ∧ c1.g < 256 ∧ c1.b < 256) :
    ∃ cf, Mix_Color color0 color1 c0 c1 (k : Int) = some cf ∧
      cf.r < 256 ∧ cf.g < 256 ∧ cf.b < 256 := by
  obtain ⟨h0r, h0g, h0b⟩ := h0
  obtain ⟨h1r, h1g, h1b⟩ := h1
  have hk4 : k = 0 ∨ k = 1 ∨ k = 2 ∨ k = 3 := by omega
  by_cases hc : color0 > color1
  · rcases hk4 with rfl | rfl | rfl | rfl <;> simp [Mix_Color, hc] <;> omega
  · rcases hk4 with rfl | rfl | rfl | rfl <;> simp [Mix_Color, hc] <;> omega

theorem idx_getElem (byte j : Nat) (hj : j < 4) :
    [byte &&& 0x03, (byte >>> 2) &&& 0x03, (byte >>> 4) &&& 0x03, (byte >>> 6) &&& 0x03][j]?
      = some (byte / 2 ^ (2 * j) % 4) := by
  have h3 : ∀ x : Nat, x &&& 3 = x % 4 := fun x => Nat.and_pow_two_sub_one_eq_mod x 2
  have hj4 : j = 0 ∨ j = 1 ∨ j = 2 ∨ j = 3 := by omega
  rcases hj4 with rfl | rfl | rfl | rfl <;> simp [h3, Nat.shiftRight_eq_div_pow]

theorem blockPixel_eq (img : List Nat) (W4 kx ky i j a0 a1 b0 b1 byte : Nat)
    (hi : i < 4) (hj : j < 4)
    (h0 : img[8 * (ky * W4 + kx)]? = some a0) (h1 : img[8 * (ky * W4 + kx) + 1]? = some a1)
    (h2 : img[8 * (ky * W4 + kx) + 2]? = some b0) (h3 : img[8 * (ky * W4 + kx) + 3]? = some b1)
    (h4 : img[8 * (ky * W4 + kx) + 4 + i]? = some byte) :
    blockPixel img (4 * W4) (4 * kx + j) (4 * ky + i) =
      Mix_Color (a0 + 256 * a1) (b0 + 256 * b1) (RGB565_RGB (a0 + 256 * a1))
        (RGB565_RGB (b0 + 256 * b1)) ((byte / 2 ^ (2 * j) % 4 : Nat) : Int) := by
  have e1 : (4 * ky + i) / 4 = ky := by omega
  have e2 : (4 * kx + j) / 4 = kx := by omega
  have e3 : 4 * W4 / 4 = W4 := by omega
  have e4 : (4 * ky + i) % 4 = i := by omega
  have e5 : (4 * kx + j) % 4 = j := by omega
  simp only [blockPixel, e1, e2, e3, e4, e5, h0, h1, h2, h3, h4]

theorem DecodedOn.mono {img : List Nat} {w : Nat} {buf : List Nat} {S T : Nat → Nat → Prop}
    (h : DecodedOn img w buf S) (hTS : ∀ x y, x < w → T x y → S x y) : DecodedOn img w buf T :=
  fun x y hx hT => h x y hx (hTS x y hx hT)

theorem fillRow_spec (img : List Nat) (W4 H4 kx ky i a0 a1 b0 b1 byte : Nat)
    (buf : List Nat) (S : Nat → Nat → Prop)
    (hkx : kx < W4) (hky : ky < H4) (hi : i < 4)
    (h0 : img[8 * (ky * W4 + kx)]? = some a0) (h1 : img[8 * (ky * W4 + kx) + 1]? = some a1)
    (h2 : img[8 * (ky * W4 + kx) + 2]? = some b0) (h3 : img[8 * (ky * W4 + kx) + 3]? = some b1)
    (h4 : img[8 * (ky * W4 + kx) + 4 + i]? = some byte)
    (hlen : buf.length = 4 * W4 * (4 * H4) * 3) (hS : DecodedOn img (4 * W4) buf S) :
    ∃ out, fillRow img (4 * W4) (a0 + 256 * a1) (b0 + 256 * b1) (RGB565_RGB (a0 + 256 * a1))
        (RGB565_RGB (b0 + 256 * b1)) (4 * kx) (4 * ky) (buf, 8 * (ky * W4 + kx) + 4 + i) i
        = some (out, 8 * (ky * W4 + kx) + 4 + (i + 1)) ∧
      out.length = 4 * W4 * (4 * H4) * 3 ∧
      DecodedOn img (4 * W4) out
        (fun x y => S x y ∨ (y = 4 * ky + i ∧ 4 * kx ≤ x ∧ x < 4 * kx + 4)) := by
  obtain ⟨out, hout, hlen1, hdec⟩ := foldlM_range_invariant
    (fun buf pixel_idx =>
        match [byte &&& 0x03, (byte >>> 2) &&& 0x03, (byte >>> 4) &&& 0x03,
            (byte >>> 6) &&& 0x03][pixel_idx]? with
        | none => none
        | some k =>
          match Mix_Color (a0 + 256 * a1) (b0 + 256 * b1) (RGB565_RGB (a0 + 256 * a1))
              (RGB565_RGB (b0 + 256 * b1)) (k : Int) with
          | none => none
          | some cf => writePixel buf ((4 * kx + pixel_idx + (4 * ky + i) * (4 * W4)) * 3) cf)
    (fun j b => b.length = 4 * W4 * (4 * H4) * 3 ∧
      DecodedOn img (4 * W4) b
        (fun x y => S x y ∨ (y = 4 * ky + i ∧ 4 * kx ≤ x ∧ x < 4 * kx + j)))
    4 buf ⟨hlen, hS.mono (fun x y _ h => by
      rcases h with h | h
      · exact h
      · omega)⟩
    (by
      intro j b hj ⟨hbl, hbd⟩
      obtain ⟨cf, hcf, hr, hg, hb⟩ := Mix_Color_some (a0 + 256 * a1) (b0 + 256 * b1)
        (RGB565_RGB (a0 + 256 * a1)) (RGB565_RGB (b0 + 256 * b1)) (byte / 2 ^ (2 * j) % 4)
        (Nat.mod_lt _ (by decide)) (RGB565_RGB_lt _) (RGB565_RGB_lt _)
      have hbp := blockPixel_eq img W4 kx ky i j a0 a1 b0 b1 byte hi hj h0 h1 h2 h3 h4
      rw [hcf] at hbp
      obtain ⟨out, hout, hlen1, hdec⟩ := writePixel_decoded img (4 * W4) (4 * H4) b _
        (4 * kx + j) (4 * ky + i) cf hbl hbd (by omega) (by omega) hbp hr hg hb
      refine ⟨out, ?_, hlen1, hdec.mono (fun x y _ h => ?_)⟩
      · simp only [idx_getElem byte j hj, hcf, hout]
      · rcases h with h | h
        · exact Or.inl (Or.inl h)
        · by_cases hx : x = 4 * kx + j
          · exact Or.inr ⟨hx, h.1⟩
          · exact Or.inl (Or.inr ⟨h.1, h.2.1, by omega⟩))
  refine ⟨out, ?_, hlen1, hdec⟩
  simp only [fillRow, h4]
  rw [hout]
  rfl

theorem fillBlock_spec (img : List Nat) (W4 H4 kx ky : Nat) (st : FillState)
    (hkx : kx < W4) (hky : ky < H4) (himg : img.length = 8 * (W4 * H4))
    (hp : st.pData = 8 * (ky * W4 + kx)) (hx : st.x_pos = 4 * kx) (hy : st.y_pos = 4 * ky)
    (hlen : st.jpeg_buf.length = 4 * W4 * (4 * H4) * 3)
    (hS : DecodedOn img (4 * W4) st.jpeg_buf
      (fun x y => y / 4 < ky ∨ (y / 4 = ky ∧ x / 4 < kx))) :
    ∃ st1, fillBlock img (4 * W4) st = some st1 ∧
      st1.pData = 8 * (ky * W4 + kx + 1) ∧
      st1.x_pos = (if kx + 1 = W4 then 0 else 4 * (kx + 1)) ∧
      st1.y_pos = (if kx + 1 = W4 then 4 * (ky + 1) else 4 * ky) ∧
      st1.jpeg_buf.length = 4 * W4 * (4 * H4) * 3 ∧
      DecodedOn img (4 * W4) st1.jpeg_buf
        (fun x y => y / 4 < ky ∨ (y / 4 = ky ∧ x / 4 < kx + 1)) := by
  have hk : ky * W4 + kx < W4 * H4 := by
    have h1 : (ky + 1) * W4 ≤ H4 * W4 := Nat.mul_le_mul_right W4 hky
    have h2 : (ky + 1) * W4 = ky * W4 + W4 := by ring
    have h3 : W4 * H4 = H4 * W4 := Nat.mul_comm W4 H4
    omega
  have hget : ∀ d, d < 8 → ∃ v, img[8 * (ky * W4 + kx) + d]? = some v := fun d hd =>
    ⟨_, List.getElem?_eq_getElem (by omega)⟩
  obtain ⟨a0, h0⟩ := hget 0 (by decide)
  obtain ⟨a1, h1⟩ := hget 1 (by decide)
  obtain ⟨b0, h2⟩ := hget 2 (by decide)
  obtain ⟨b1, h3⟩ := hget 3 (by decide)
  rw [Nat.add_zero] at h0
  obtain ⟨⟨out, p⟩, hout, hp1, hlen1, hdec⟩ := foldlM_range_invariant
    (fillRow img (4 * W4) (a0 + 256 * a1) (b0 + 256 * b1) (RGB565_RGB (a0 + 256 * a1))
      (RGB565_RGB (b0 + 256 * b1)) (4 * kx) (4 * ky))
    (fun i (s : List Nat × Nat) => s.2 = 8 * (ky * W4 + kx) + 4 + i ∧
      s.1.length = 4 * W4 * (4 * H4) * 3 ∧
      DecodedOn img (4 * W4) s.1
        (fun x y => (y / 4 < ky ∨ (y / 4 = ky ∧ x / 4 < kx)) ∨
          (4 * ky ≤ y ∧ y < 4 * ky + i ∧ 4 * kx ≤ x ∧ x < 4 * kx + 4)))
    4 (st.jpeg_buf, 8 * (ky * W4 + kx) + 4)
    ⟨rfl, hlen, hS.mono (fun x y _ h => by
      rcases h with h | h
      · exact h
      · omega)⟩
    (by
      intro i s hi ⟨hs2, hsl, hsd⟩
      obtain ⟨b, p⟩ := s
      simp only at hs2 hsl hsd
      subst hs2
      obtain ⟨byte, h4⟩ := hget (4 + i) (by omega)
      rw [← Nat.add_assoc] at h4
      obtain ⟨out, hout, hlen1, hdec⟩ := fillRow_spec img W4 H4 kx ky i a0 a1 b0 b1 byte b _
        hkx hky hi h0 h1 h2 h3 h4 hsl hsd
      refine ⟨(out, _), hout, rfl, hlen1, hdec.mono (fun x y _ h => ?_)⟩
      rcases h with h | h
      · exact Or.inl (Or.inl h)
      · by_cases hy : y = 4 * ky + i
        · exact Or.inr ⟨hy, h.2.2.1, h.2.2.2⟩
        · exact Or.inl (Or.inr ⟨h.1, by omega, h.2.2.1, h.2.2.2⟩))
  simp only at hp1 hlen1 hdec
  subst hp1
  have hdec1 : DecodedOn img (4 * W4) out
      (fun x y => y / 4 < ky ∨ (y / 4 = ky ∧ x / 4 < kx + 1)) :=
    hdec.mono (fun x y _ h => by omega)
  by_cases hw : kx + 1 = W4
  · refine ⟨⟨out, 8 * (ky * W4 + kx) + 4 + 4, 0, 4 * ky + 4⟩, ?_, ?_, ?_, ?_, hlen1, hdec1⟩
    · simp only [fillBlock, hp, hx, hy, h0, h1, h2, h3, hout]
      rw [if_pos (by omega)]
    · simp only
      omega
    · simp [hw]
    · simp only [hw, if_true]
      omega
  · refine ⟨⟨out, 8 * (ky * W4 + kx) + 4 + 4, 4 * kx + 4, 4 * ky⟩, ?_, ?_, ?_, ?_, hlen1, hdec1⟩
    · simp only [fillBlock, hp, hx, hy, h0, h1, h2, h3, hout]
      rw [if_neg (by omega)]
    · simp only
      omega
    · simp only [hw, if_false]
      omega
    · simp [hw]

theorem vectorResize_length (v : List Nat) (n : Nat) : (vectorResize v n).length = n := by
  simp only [vectorResize, List.length_append, List.length_take, List.length_replicate]
  omega

theorem fillBlocks_spec (img : List Nat) (W4 H4 : Nat) (buf : List Nat)
    (himg : img.length = 8 * (W4 * H4)) (hW : 0 < W4)
    (hlen : buf.length = 4 * W4 * (4 * H4) * 3) :
    ∃ st, (List.range (W4 * H4)).foldlM (fun st _ => fillBlock img (4 * W4) st)
        (⟨buf, 0, 0, 0⟩ : FillState) = some st ∧
      st.jpeg_buf.length = 4 * W4 * (4 * H4) * 3 ∧
      DecodedOn img (4 * W4) st.jpeg_buf (fun _ y => y < 4 * H4) := by
  obtain ⟨st, hst, hlen1, kx, ky, hk, hkx, _, _, _, hdec⟩ := foldlM_range_invariant
    (fun st _ => fillBlock img (4 * W4) st)
    (fun k (st : FillState) => st.jpeg_buf.length = 4 * W4 * (4 * H4) * 3 ∧
      ∃ kx ky, k = ky * W4 + kx ∧ kx < W4 ∧ st.pData = 8 * k ∧ st.x_pos = 4 * kx ∧
        st.y_pos = 4 * ky ∧
        DecodedOn img (4 * W4) st.jpeg_buf (fun x y => y / 4 < ky ∨ (y / 4 = ky ∧ x / 4 < kx)))
    (W4 * H4) ⟨buf, 0, 0, 0⟩
    ⟨hlen, 0, 0, by simp, hW, rfl, rfl, rfl, fun x y _ h => by omega⟩
    (by
      intro k st hk ⟨hl, kx, ky, hkk, hkx, hp, hx, hy, hd⟩
      have hky : ky < H4 := by
        by_contra hcon
        have h1 : H4 * W4 ≤ ky * W4 := Nat.mul_le_mul_right W4 (Nat.le_of_not_lt hcon)
        have h2 : W4 * H4 = H4 * W4 := Nat.mul_comm W4 H4
        omega
      obtain ⟨st1, hst1, hp1, hx1, hy1, hl1, hd1⟩ := fillBlock_spec img W4 H4 kx ky st hkx hky
        himg (by rw [hp, hkk]) hx hy hl hd
      refine ⟨st1, hst1, hl1, ?_⟩
      by_cases hw : kx + 1 = W4
      · refine ⟨0, ky + 1, ?_, hW, ?_, ?_, ?_, hd1.mono (fun x y hx h => by omega)⟩
        · have : (ky + 1) * W4 = ky * W4 + W4 := by ring
          omega
        · rw [hp1, hkk]
        · simp [hx1, hw]
        · simp [hy1, hw]
      · refine ⟨kx + 1, ky, by omega, by omega, ?_, ?_, ?_, hd1⟩
        · rw [hp1, hkk]
        · simp [hx1, hw]
        · simp [hy1, hw])
  refine ⟨st, hst, hlen1, hdec.mono (fun x y _ h => ?_)⟩
  have hky : H4 ≤ ky := by
    by_contra hcon
    have h1 : (ky + 1) * W4 ≤ H4 * W4 := Nat.mul_le_mul_right W4 (by omega)
    have h2 : W4 * H4 = H4 * W4 := Nat.mul_comm W4 H4
    have h3 : (ky + 1) * W4 = ky * W4 + W4 := by ring
    omega
  omega

/-- C5: for `width` and `height` positive multiples of 4 not above 2048 and
an image of exactly `width·height/2` bytes, `fill4BitImage` returns a raster of
`width·height·3` bytes (all indices stay below 2^31) with `width` and `height`
unchanged, in which every pixel `(x, y)` has the palette colour `blockPixel`
reads from block `(y/4)·(width/4) + x/4`. -/
theorem fill4BitImage_decodes (jpeg_buf img : List Nat) (width height : Nat)
    (hw0 : 0 < width) (hh0 : 0 < height) (hw4 : width % 4 = 0) (hh4 : height % 4 = 0)
    (hw : width ≤ 2048) (hh : height ≤ 2048) (himg : img.length = width * height / 2) :
    width * height * 3 < 2 ^ 31 ∧
    ∃ out, fill4BitImage jpeg_buf img width height = some (out, width, height) ∧
      out.length = width * height * 3 ∧
      ∀ x y, x < width → y < height →
        ∃ c, blockPixel img width x y = some c ∧ PixelIs out width x y c := by
  have hbound : width * height * 3 < 2 ^ 31 := by
    have h1 : width * height ≤ 2048 * 2048 := Nat.mul_le_mul hw hh
    omega
  refine ⟨hbound, ?_⟩
  obtain ⟨W4, rfl⟩ : ∃ W4, width = 4 * W4 := ⟨width / 4, by omega⟩
  obtain ⟨H4, rfl⟩ : ∃ H4, height = 4 * H4 := ⟨height / 4, by omega⟩
  have hmul : 4 * W4 * (4 * H4) = 16 * (W4 * H4) := by ring
  have himg1 : img.length = 8 * (W4 * H4) := by
    rw [himg, hmul]
    omega
  obtain ⟨st, hst, hlen, hdec⟩ := fillBlocks_spec img W4 H4
    (vectorResize jpeg_buf (4 * W4 * (4 * H4) * 3)) himg1 (by omega) (vectorResize_length _ _)
  have hn : (img.length + 7) / 8 = W4 * H4 := by
    rw [himg1]
    omega
  refine ⟨st.jpeg_buf, ?_, hlen, fun x y hx hy => hdec x y hx hy⟩
  simp only [fill4BitImage, hn, hst]
  rw [if_neg (by omega)]

theorem fill4BitImage_decodes_witness :
    (0 < 4 ∧ 4 % 4 = 0 ∧ 4 ≤ 2048 ∧ exampleBlock.length = 4 * 4 / 2) ∧
    4 * 4 * 3 < 2 ^ 31 ∧
    ∃ out, fill4BitImage [] exampleBlock 4 4 = some (out, 4, 4) ∧
      out.length = 4 * 4 * 3 ∧
      ∀ x y, x < 4 → y < 4 →
        ∃ c, blockPixel exampleBlock 4 x y = some c ∧ PixelIs out 4 x y c :=
  ⟨by decide, fill4BitImage_decodes [] exampleBlock 4 4 (by decide) (by decide) (by decide)
    (by decide) (by decide) (by decide) (by decide)⟩

/-! ## Downsampling -/

theorem resize_source_lt {w h new_w new_h row col i : Nat} (hs : 1 ≤ w / new_w)
    (hh : new_h * (w / new_w) ≤ h) (hrow : row < new_h) (hcol : col < new_w) (hi : i < 3) :
    col * (w / new_w) < w ∧ row * (w / new_w) < h ∧
    3 * ((row * w + col) * (w / new_w)) + i < w * h * 3 := by
  have h1 : (col + 1) * (w / new_w) ≤ new_w * (w / new_w) := Nat.mul_le_mul_right _ hcol
  have h2 : new_w * (w / new_w) ≤ w := Nat.mul_div_le w new_w
  have h3 : (col + 1) * (w / new_w) = col * (w / new_w) + w / new_w := by ring
  have h4 : (row + 1) * (w / new_w) ≤ new_h * (w / new_w) := Nat.mul_le_mul_right _ hrow
  have h5 : (row + 1) * (w / new_w) = row * (w / new_w) + w / new_w := by ring
  have h6 : (row * w + col) * (w / new_w) = row * (w / new_w) * w + col * (w / new_w) := by ring
  have h7 : (row * (w / new_w) + 1) * w ≤ h * w := Nat.mul_le_mul_right w (by omega)
  have h8 : (row * (w / new_w) + 1) * w = row * (w / new_w) * w + w := by ring
  have h9 : w * h = h * w := Nat.mul_comm w h
  refine ⟨by omega, by omega, ?_⟩
  rw [h6]
  omega

theorem resize_index_lt {new_w new_h row col i : Nat} (hrow : row < new_h) (hcol : col < new_w)
    (hi : i < 3) : 3 * (row * new_w + col) + i < new_w * new_h * 3 := by
  have h1 : (row + 1) * new_w ≤ new_h * new_w := Nat.mul_le_mul_right new_w hrow
  have h2 : (row + 1) * new_w = row * new_w + new_w := by ring
  have h3 : new_w * new_h = new_h * new_w := Nat.mul_comm new_w new_h
  omega

theorem resize_index_decode (row : Nat) {new_w col i : Nat} (hcol : col < new_w) (hi : i < 3) :
    (3 * (row * new_w + col) + i) / 3 / new_w = row ∧
    (3 * (row * new_w + col) + i) / 3 % new_w = col ∧
    (3 * (row * new_w + col) + i) % 3 = i := by
  have h1 : (3 * (row * new_w + col) + i) / 3 = col + row * new_w := by omega
  have hw : 0 < new_w := by omega
  rw [h1, Nat.add_mul_div_right _ _ hw, Nat.add_mul_mod_self_right, Nat.div_eq_of_lt hcol,
    Nat.mod_eq_of_lt hcol]
  omega

theorem foldlM_congr_mem {β : Type} (f g : β → Nat → Option β) :
    ∀ (l : List Nat) (b0 : β), (∀ k b, k ∈ l → f b k = g b k) →
      l.foldlM f b0 = l.foldlM g b0
  | [], _, _ => rfl
  | a :: l, b0, h => by
    rw [List.foldlM_cons, List.foldlM_cons, h a b0 (by simp)]
    congr 1
    funext b
    exact foldlM_congr_mem f g l b (fun k b1 hk => h k b1 (by simp [hk]))

theorem checkInt_of_lt {n : Nat} (h : n < 2147483648) : checkInt n = some n := by
  rw [checkInt, if_pos h]

/-- While no `int` value of a row overflows, the pass of `resizeImage` over the
row is the pass with exact arithmetic. -/
theorem resizeRow_exact (jpeg_buf : List Nat) (w new_w s row : Nat) (buf : List Nat)
    (hB : ∀ col i, col < new_w → i < 3 → row * w + col < 2147483648 ∧
      3 * ((row * w + col) * s) + i < 2147483648 ∧
      3 * (row * new_w + col) + i < 2147483648) :
    (List.range new_w).foldlM (fun buf col =>
        (checkInt (row * new_w + col)).bind fun pos =>
        (checkInt (row * w + col)).bind fun cell =>
        (checkInt (cell * s)).bind fun old_pos =>
        (List.range 3).foldlM (fun buf i =>
          (checkInt (3 * old_pos + i)).bind fun src =>
          (checkInt (3 * pos + i)).bind fun dst =>
          copyByte jpeg_buf src dst buf) buf) buf =
      (List.range new_w).foldlM (fun buf col =>
        (List.range 3).foldlM (fun buf i =>
          copyByte jpeg_buf (3 * ((row * w + col) * s) + i) (3 * (row * new_w + col) + i) buf)
          buf) buf := by
  apply foldlM_congr_mem
  intro col b hcol
  have hcol1 : col < new_w := List.mem_range.mp hcol
  obtain ⟨h1, h2, h3⟩ := hB col 0 hcol1 (by decide)
  simp only [checkInt_of_lt (show row * new_w + col < 2147483648 by omega), checkInt_of_lt h1,
    checkInt_of_lt (show (row * w + col) * s < 2147483648 by omega), Option.some_bind]
  apply foldlM_congr_mem
  intro i b1 hi
  have hi1 : i < 3 := List.mem_range.mp hi
  obtain ⟨_, h5, h6⟩ := hB col i hcol1 hi1
  simp only [checkInt_of_lt h5, checkInt_of_lt h6, Option.some_bind]

/-- While no `int` value overflows, `resizeImage` is its three loops with
exact arithmetic. -/
theorem resizeImage_exact (jpeg_buf : List Nat) (w h new_w new_h : Nat) (hnw : new_w ≠ 0)
    (hsize : new_w * new_h * 3 < 2147483648)
    (hB : ∀ row col i, row < new_h → col < new_w → i < 3 → row * w + col < 2147483648 ∧
      3 * ((row * w + col) * (w / new_w)) + i < 2147483648 ∧
      3 * (row * new_w + col) + i < 2147483648) :
    resizeImage jpeg_buf w h new_w new_h =
      (List.range new_h).foldlM (fun buf row =>
        (List.range new_w).foldlM (fun buf col =>
          (List.range 3).foldlM (fun buf i =>
            copyByte jpeg_buf (3 * ((row * w + col) * (w / new_w)) + i)
              (3 * (row * new_w + col) + i) buf) buf) buf)
        (List.replicate (new_w * new_h * 3) 0) := by
  simp only [resizeImage, checkInt_of_lt hsize, Option.some_bind, if_neg hnw]
  apply foldlM_congr_mem
  intro row b hrow
  exact resizeRow_exact jpeg_buf w new_w (w / new_w) row b
    (fun col i hcol hi => hB row col i (List.mem_range.mp hrow) hcol hi)

theorem resize_size_le {w h new_w new_h : Nat} (hs : 1 ≤ w / new_w)
    (hh : new_h * (w / new_w) ≤ h) : new_w * new_h * 3 ≤ w * h * 3 := by
  have h5 : new_w * (w / new_w) ≤ w := Nat.mul_div_le w new_w
  have h6 : new_w ≤ new_w * (w / new_w) := Nat.le_mul_of_pos_right _ hs
  have h7 : new_h ≤ new_h * (w / new_w) := Nat.le_mul_of_pos_right _ hs
  have h8 : new_w * new_h ≤ w * h := Nat.mul_le_mul (by omega) (by omega)
  omega

theorem resize_no_overflow {w h new_w new_h row col i : Nat} (hs : 1 ≤ w / new_w)
    (hh : new_h * (w / new_w) ≤ h) (hbound : w * h * 3 < 2147483648)
    (hrow : row < new_h) (hcol : col < new_w) (hi : i < 3) :
    row * w + col < 2147483648 ∧
    3 * ((row * w + col) * (w / new_w)) + i < 2147483648 ∧
    3 * (row * new_w + col) + i < 2147483648 := by
  obtain ⟨_, _, h3⟩ := resize_source_lt hs hh hrow hcol hi
  have h4 := resize_index_lt hrow hcol hi
  have h8 := resize_size_le hs hh
  have h9 : row * w + col ≤ (row * w + col) * (w / new_w) := Nat.le_mul_of_pos_right _ hs
  refine ⟨by omega, by omega, by omega⟩

theorem resizeImage_spec (jpeg_buf : List Nat) (w h new_w new_h : Nat)
    (hlen : jpeg_buf.length = w * h * 3) (hbound : w * h * 3 < 2 ^ 31) (hs : 1 ≤ w / new_w)
    (hh : new_h * (w / new_w) ≤ h) :
    ∃ out, resizeImage jpeg_buf w h new_w new_h = some out ∧
      out.length = new_w * new_h * 3 ∧
      ∀ col row i, col < new_w → row < new_h → i < 3 →
        col * (w / new_w) < w ∧ row * (w / new_w) < h ∧
        ∃ v, jpeg_buf[3 * (row * (w / new_w) * w + col * (w / new_w)) + i]? = some v ∧
          out[3 * (row * new_w + col) + i]? = some v := by
  have hnw : new_w ≠ 0 := by
    rintro rfl
    simp at hs
  -- the byte the loops store at position `3 * (row * new_w + col) + i`
  have key : ∃ out, (List.range new_h).foldlM (fun buf row =>
      (List.range new_w).foldlM (fun buf col =>
        (List.range 3).foldlM (fun buf i =>
          copyByte jpeg_buf (3 * ((row * w + col) * (w / new_w)) + i)
            (3 * (row * new_w + col) + i) buf) buf) buf)
        (List.replicate (new_w * new_h * 3) 0) = some out ∧
      out.length = new_w * new_h * 3 ∧
      ∀ row col i, row < new_h → col < new_w → i < 3 →
        out[3 * (row * new_w + col) + i]? =
          jpeg_buf[3 * ((row * w + col) * (w / new_w)) + i]? := by
    have hP := foldlM_range_invariant
      (fun buf row =>
        (List.range new_w).foldlM (fun buf col =>
          (List.range 3).foldlM (fun buf i =>
            copyByte jpeg_buf (3 * ((row * w + col) * (w / new_w)) + i)
              (3 * (row * new_w + col) + i) buf) buf) buf)
      (fun r (buf : List Nat) => buf.length = new_w * new_h * 3 ∧
        ∀ j, j < 3 * (r * new_w) → buf[j]? =
          jpeg_buf[3 * ((j / 3 / new_w * w + j / 3 % new_w) * (w / new_w)) + j % 3]?)
      new_h (List.replicate (new_w * new_h * 3) 0)
      ⟨by simp, fun j hj => by simp at hj⟩
      (by
        intro r buf hr hbuf
        obtain ⟨out, hout, hl, hd⟩ := foldlM_range_invariant
          (fun buf col =>
            (List.range 3).foldlM (fun buf i =>
              copyByte jpeg_buf (3 * ((r * w + col) * (w / new_w)) + i)
                (3 * (r * new_w + col) + i) buf) buf)
          (fun c (buf : List Nat) => buf.length = new_w * new_h * 3 ∧
            ∀ j, j < 3 * (r * new_w + c) → buf[j]? =
              jpeg_buf[3 * ((j / 3 / new_w * w + j / 3 % new_w) * (w / new_w)) + j % 3]?)
          new_w buf hbuf
          (by
            intro c buf hc hbuf
            obtain ⟨out, hout, hl, hd⟩ := foldlM_range_invariant
              (fun buf i =>
                copyByte jpeg_buf (3 * ((r * w + c) * (w / new_w)) + i)
                  (3 * (r * new_w + c) + i) buf)
              (fun i (buf : List Nat) => buf.length = new_w * new_h * 3 ∧
                ∀ j, j < 3 * (r * new_w + c) + i → buf[j]? =
                  jpeg_buf[3 * ((j / 3 / new_w * w + j / 3 % new_w) * (w / new_w)) + j % 3]?)
              3 buf hbuf
              (by
                intro i buf hi ⟨hbl, hbd⟩
                obtain ⟨_, _, hsrc⟩ := resize_source_lt hs hh hr hc hi
                have hdst := resize_index_lt hr hc hi
                obtain ⟨v, hv⟩ :
                    ∃ v, jpeg_buf[3 * ((r * w + c) * (w / new_w)) + i]? = some v :=
                  ⟨_, List.getElem?_eq_getElem (by omega)⟩
                refine ⟨buf.set (3 * (r * new_w + c) + i) v, ?_, by simp [hbl], ?_⟩
                · simp only [copyByte, hv]
                  rw [if_pos (by omega)]
                · intro j hj
                  by_cases hjm : j = 3 * (r * new_w + c) + i
                  · subst hjm
                    obtain ⟨e1, e2, e3⟩ := resize_index_decode r hc hi
                    rw [e1, e2, e3, hv, List.getElem?_set_self (by omega)]
                  · rw [List.getElem?_set_ne (by omega)]
                    exact hbd j (by omega))
            exact ⟨out, hout, hl, fun j hj => hd j (by omega)⟩)
        refine ⟨out, hout, hl, fun j hj => hd j ?_⟩
        have : (r + 1) * new_w = r * new_w + new_w := by ring
        omega)
    obtain ⟨out, hout, hl, hd⟩ := hP
    refine ⟨out, hout, hl, fun row col i hrow hcol hi => ?_⟩
    have hdst := resize_index_lt hrow hcol hi
    obtain ⟨e1, e2, e3⟩ := resize_index_decode row hcol hi
    have h3 : new_w * new_h = new_h * new_w := Nat.mul_comm new_w new_h
    rw [hd _ (by omega), e1, e2, e3]
  obtain ⟨out, hout, hlen1, hpix⟩ := key
  refine ⟨out, ?_, hlen1, ?_⟩
  · have hb : w * h * 3 < 2147483648 := by omega
    have hsize := resize_size_le hs hh
    rw [resizeImage_exact jpeg_buf w h new_w new_h hnw (by omega)
      (fun row col i hrow hcol hi => resize_no_overflow hs hh hb hrow hcol hi)]
    exact hout
  · intro col row i hcol hrow hi
    obtain ⟨h1, h2, h3⟩ := resize_source_lt hs hh hrow hcol hi
    obtain ⟨v, hv⟩ : ∃ v, jpeg_buf[3 * ((row * w + col) * (w / new_w)) + i]? = some v :=
      ⟨_, List.getElem?_eq_getElem (by omega)⟩
    have hring : 3 * (row * (w / new_w) * w + col * (w / new_w)) + i
        = 3 * ((row * w + col) * (w / new_w)) + i := by ring
    refine ⟨h1, h2, v, ?_, ?_⟩
    · rw [hring, hv]
    · rw [hpix row col i hrow hcol hi, hv]

/-- C7, amended: for an RGB raster of `w·h·3` bytes with `w·h·3 < 2^31`,
the sizes for which the `int` arithmetic of the code is exact, and a target
size with stride `s = w / new_w ≥ 1` and `new_h·s ≤ h`, `resizeImage` returns a
buffer of exactly `new_w·new_h·3` bytes whose pixel `(col, row)` is the source
pixel `(col·s, row·s)`, a pixel of the source; and halving a 4096×4096 raster
twice gives a 1024×1024 raster whose pixel (0,0) is the source's pixel
(0,0). -/
theorem resizeImage_nearest :
    (∀ (jpeg_buf : List Nat) (w h new_w new_h : Nat), jpeg_buf.length = w * h * 3 →
      w * h * 3 < 2 ^ 31 → 1 ≤ w / new_w → new_h * (w / new_w) ≤ h →
      ∃ out, resizeImage jpeg_buf w h new_w new_h = some out ∧
        out.length = new_w * new_h * 3 ∧
        ∀ col row i, col < new_w → row < new_h → i < 3 →
          col * (w / new_w) < w ∧ row * (w / new_w) < h ∧
          ∃ v, jpeg_buf[3 * (row * (w / new_w) * w + col * (w / new_w)) + i]? = some v ∧
            out[3 * (row * new_w + col) + i]? = some v) ∧
    (∀ src : List Nat, src.length = 4096 * 4096 * 3 →
      ∃ half out, resizeImage src 4096 4096 2048 2048 = some half ∧
        resizeImage half 2048 2048 1024 1024 = some out ∧
        out.length = 1024 * 1024 * 3 ∧
        ∀ i, i < 3 → ∃ v, src[i]? = some v ∧ out[i]? = some v) := by
  refine ⟨resizeImage_spec, fun src hsrc => ?_⟩
  obtain ⟨half, hhalf, hl1, hp1⟩ := resizeImage_spec src 4096 4096 2048 2048 hsrc
    (by decide) (by decide) (by decide)
  obtain ⟨out, hout, hl2, hp2⟩ := resizeImage_spec half 2048 2048 1024 1024 hl1
    (by decide) (by decide) (by decide)
  refine ⟨half, out, hhalf, hout, hl2, fun i hi => ?_⟩
  obtain ⟨_, _, v, hv, hv1⟩ := hp1 0 0 i (by decide) (by decide) hi
  obtain ⟨_, _, u, hu, hu1⟩ := hp2 0 0 i (by decide) (by decide) hi
  simp only [Nat.zero_mul, Nat.mul_zero, Nat.zero_add, Nat.add_zero] at hv hv1 hu hu1
  rw [hv1] at hu
  cases hu
  exact ⟨v, hv, hu1⟩

theorem resizeImage_nearest_witness :
    [1, 2, 3, 4, 5, 6, 7, 8, 9, 10, 11, 12].length = 2 * 2 * 3 ∧ 2 * 2 * 3 < 2 ^ 31 ∧
    1 ≤ 2 / 1 ∧ 1 * (2 / 1) ≤ 2 ∧
    ∃ out, resizeImage [1, 2, 3, 4, 5, 6, 7, 8, 9, 10, 11, 12] 2 2 1 1 = some out ∧
      out.length = 1 * 1 * 3 ∧
      ∀ col row i, col < 1 → row < 1 → i < 3 →
        col * (2 / 1) < 2 ∧ row * (2 / 1) < 2 ∧
        ∃ v, [1, 2, 3, 4, 5, 6, 7, 8, 9, 10, 11, 12][3 * (row * (2 / 1) * 2 + col * (2 / 1)) + i]?
            = some v ∧
          out[3 * (row * 1 + col) + i]? = some v :=
  ⟨by decide, by decide, by decide, by decide,
    resizeImage_nearest.1 [1, 2, 3, 4, 5, 6, 7, 8, 9, 10, 11, 12] 2 2 1 1 (by decide)
      (by decide) (by decide) (by decide)⟩

/-! ## Safety of the downsample stage -/

theorem foldlM_range_fails {β : Type} (f : β → Nat → Option β) (I : Nat → β → Prop)
    (n k : Nat) (b0 : β) (hk : k < n) (h0 : I 0 b0)
    (hstep : ∀ j b, j < k → I j b → ∃ b1, f b j = some b1 ∧ I (j + 1) b1)
    (hfail : ∀ b, I k b → f b k = none) :
    (List.range n).foldlM f b0 = none := by
  induction n with
  | zero => omega
  | succ n ih =>
    rw [List.range_succ, List.foldlM_append]
    by_cases hkn : k < n
    · rw [ih hkn]
      rfl
    · have hkeq : k = n := by omega
      subst hkeq
      obtain ⟨b1, hb1, hI⟩ := foldlM_range_invariant f I k b0 h0 hstep
      rw [hb1]
      simp [hfail b1 hI]

theorem resizeRow_some (jpeg_buf : List Nat) (w new_w s row : Nat) (buf : List Nat)
    (hsrc : ∀ col i, col < new_w → i < 3 → 3 * ((row * w + col) * s) + i < jpeg_buf.length)
    (hdst : 3 * (row * new_w + new_w) ≤ buf.length) :
    ∃ out, (List.range new_w).foldlM (fun buf col =>
        (List.range 3).foldlM (fun buf i =>
          copyByte jpeg_buf (3 * ((row * w + col) * s) + i) (3 * (row * new_w + col) + i) buf)
          buf) buf = some out ∧ out.length = buf.length := by
  refine foldlM_range_invariant _ (fun _ (b : List Nat) => b.length = buf.length) new_w buf rfl ?_
  intro col b hcol hb
  refine foldlM_range_invariant _ (fun _ (b : List Nat) => b.length = buf.length) 3 b hb ?_
  intro i b1 hi hb1
  obtain ⟨v, hv⟩ : ∃ v, jpeg_buf[3 * ((row * w + col) * s) + i]? = some v :=
    ⟨_, List.getElem?_eq_getElem (hsrc col i hcol hi)⟩
  refine ⟨b1.set (3 * (row * new_w + col) + i) v, ?_, by simp [hb1]⟩
  simp only [copyByte, hv]
  rw [if_pos (by omega)]

theorem resizeImage_overflows (jpeg_buf : List Nat)
    (hlen : jpeg_buf.length = 32768 * 32768 * 3) :
    resizeImage jpeg_buf 32768 32768 16384 16384 = none := by
  have h2 : 32768 / 16384 = 2 := by decide
  simp only [resizeImage, checkInt_of_lt (show 16384 * 16384 * 3 < 2147483648 by decide),
    Option.some_bind, if_neg (show ¬ (16384 = 0) by decide), h2]
  refine foldlM_range_fails _ (fun _ (b : List Nat) => b.length = 16384 * 16384 * 3) 16384 10923
    _ (by decide) (List.length_replicate _ _) ?_ ?_
  · intro row b hrow hb
    rw [resizeRow_exact jpeg_buf 32768 16384 2 row b (fun col i hcol hi => by omega)]
    obtain ⟨out, hout, hl⟩ := resizeRow_some jpeg_buf 32768 16384 2 row b
      (fun col i hcol hi => by omega) (by omega)
    exact ⟨out, hout, hl.trans hb⟩
  · intro b _
    refine foldlM_range_fails _ (fun _ (_ : List Nat) => True) 16384 0 b (by decide) trivial
      (fun j _ hj _ => by omega) ?_
    intro b1 _
    have h3 : ¬ (3 * ((10923 * 32768 + 0) * 2) + 0 < 2147483648) := by decide
    simp only [checkInt_of_lt (show 10923 * 16384 + 0 < 2147483648 by decide),
      checkInt_of_lt (show 10923 * 32768 + 0 < 2147483648 by decide),
      checkInt_of_lt (show (10923 * 32768 + 0) * 2 < 2147483648 by decide), Option.some_bind]
    rw [show List.range 3 = [0, 1, 2] by decide, List.foldlM_cons, checkInt, if_neg h3]
    rfl

/-- C7 as stated fails: for the raster of 32768×32768 pixels halved to
16384×16384 the stride is 2 and the rows fit the source, but at row 10923,
column 0 the index `3 * old_pos` is 2147549184, above `INT_MAX`: the `int`
arithmetic of `resizeImage` overflows and no buffer is produced. -/
theorem resizeImage_int_overflow :
    hugeRaster.length = 32768 * 32768 * 3 ∧ 1 ≤ 32768 / 16384 ∧
    16384 * (32768 / 16384) ≤ 32768 ∧
    2 ^ 31 ≤ 3 * ((10923 * 32768 + 0) * (32768 / 16384)) + 0 ∧
    resizeImage hugeRaster 32768 32768 16384 16384 = none :=
  ⟨List.length_replicate _ _, by decide, by decide, by decide,
    resizeImage_overflows hugeRaster (List.length_replicate _ _)⟩

theorem resizeImage_reads_outside (jpeg_buf : List Nat) (hlen : jpeg_buf.length = 12 * 8196 * 3) :
    resizeImage jpeg_buf 12 8196 1 1024 = none := by
  have h12 : 12 / 1 = 12 := by decide
  rw [resizeImage_exact jpeg_buf 12 8196 1 1024 (by decide) (by decide)
    (fun row col i hrow hcol hi => by omega)]
  simp only [h12]
  refine foldlM_range_fails _ (fun _ (b : List Nat) => b.length = 1 * 1024 * 3) 1024 683
    _ (by decide) (List.length_replicate _ _) ?_ ?_
  · intro row b hrow hb
    obtain ⟨out, hout, hl⟩ := resizeRow_some jpeg_buf 12 1 12 row b
      (fun col i hcol hi => by omega) (by omega)
    exact ⟨out, hout, hl.trans hb⟩
  · intro b _
    have hnone : jpeg_buf[3 * ((683 * 12 + 0) * 12) + 0]? = none :=
      List.getElem?_eq_none (by omega)
    simp [List.range_succ, copyByte, hnone]

theorem fill4BitImage_downsample (jpeg_buf img : List Nat) (W4 H4 : Nat) (hW : 0 < W4)
    (himg : img.length = 8 * (W4 * H4)) (hbig : 4 * W4 > 2048 ∨ 4 * H4 > 2048) :
    ∃ st, (List.range ((img.length + 7) / 8)).foldlM (fun st _ => fillBlock img (4 * W4) st)
        (⟨vectorResize jpeg_buf (4 * W4 * (4 * H4) * 3), 0, 0, 0⟩ : FillState) = some st ∧
      st.jpeg_buf.length = 4 * W4 * (4 * H4) * 3 ∧
      fill4BitImage jpeg_buf img (4 * W4) (4 * H4) =
        (resizeImage st.jpeg_buf (4 * W4) (4 * H4) (halve 2048 (4 * W4) (4 * H4)).1
          (halve 2048 (4 * W4) (4 * H4)).2).map
          (fun buf => (buf, (halve 2048 (4 * W4) (4 * H4)).1, (halve 2048 (4 * W4) (4 * H4)).2)) := by
  obtain ⟨st, hst, hlen, _⟩ := fillBlocks_spec img W4 H4
    (vectorResize jpeg_buf (4 * W4 * (4 * H4) * 3)) himg hW (vectorResize_length _ _)
  have hn : (img.length + 7) / 8 = W4 * H4 := by
    rw [himg]
    omega
  refine ⟨st, by rw [hn]; exact hst, hlen, ?_⟩
  simp only [fill4BitImage, hn, hst]
  rw [if_pos hbig]
  cases resizeImage st.jpeg_buf (4 * W4) (4 * H4) (halve 2048 (4 * W4) (4 * H4)).1
    (halve 2048 (4 * W4) (4 * H4)).2 <;> rfl

/-- C11, evaluated on the code. For width 4 and height 8196 the halving loop
ends with `new_w = 0`: the packed image decodes into `4·8196·3` bytes and
`resizeImage` then divides by zero, so `fill4BitImage` has no result. For
width 12 and height 8196 the loop ends with `new_w = 1`, `new_h = 1024` and
`scale = 12`: at row 683, column 0 the source index is `12·8196·3`, the length
of the decoded buffer, so `resizeImage` reads outside it and `fill4BitImage`
has no result. -/
theorem fill4BitImage_downsample_unsafe :
    4 % 4 = 0 ∧ 12 % 4 = 0 ∧ 8196 % 4 = 0 ∧ 8196 > 2048 ∧
    narrowImage.length = 4 * 8196 / 2 ∧ slimImage.length = 12 * 8196 / 2 ∧
    halve 2048 4 8196 = (0, 1024) ∧
    (∃ st, (List.range ((narrowImage.length + 7) / 8)).foldlM
        (fun st _ => fillBlock narrowImage 4 st)
        (⟨vectorResize [] (4 * 8196 * 3), 0, 0, 0⟩ : FillState) = some st ∧
      st.jpeg_buf.length = 4 * 8196 * 3 ∧
      resizeImage st.jpeg_buf 4 8196 0 1024 = none) ∧
    fill4BitImage [] narrowImage 4 8196 = none ∧
    halve 2048 12 8196 = (1, 1024) ∧
    (683 < 1024 ∧ 0 < 1 ∧ 12 * 8196 * 3 ≤ 3 * ((683 * 12 + 0) * (12 / 1)) + 0) ∧
    (∃ st, (List.range ((slimImage.length + 7) / 8)).foldlM
        (fun st _ => fillBlock slimImage 12 st)
        (⟨vectorResize [] (12 * 8196 * 3), 0, 0, 0⟩ : FillState) = some st ∧
      st.jpeg_buf.length = 12 * 8196 * 3 ∧
      resizeImage st.jpeg_buf 12 8196 1 1024 = none) ∧
    fill4BitImage [] slimImage 12 8196 = none := by
  have hn : narrowImage.length = 16392 := List.length_replicate _ _
  have hs : slimImage.length = 49176 := List.length_replicate _ _
  have h1 : halve 2048 4 8196 = (0, 1024) := by simp [halve]
  have h2 : halve 2048 12 8196 = (1, 1024) := by simp [halve]
  obtain ⟨st1, hst1, hl1, hf1⟩ := fill4BitImage_downsample [] narrowImage 1 2049 (by decide)
    (by rw [hn]) (by decide)
  obtain ⟨st2, hst2, hl2, hf2⟩ := fill4BitImage_downsample [] slimImage 3 2049 (by decide)
    (by rw [hs]) (by decide)
  have hr1 : resizeImage st1.jpeg_buf 4 8196 0 1024 = none := by simp [resizeImage, checkInt]
  have hr2 : resizeImage st2.jpeg_buf 12 8196 1 1024 = none :=
    resizeImage_reads_outside st2.jpeg_buf hl2
  refine ⟨by decide, by decide, by decide, by decide, by rw [hn], by rw [hs], h1,
    ⟨st1, hst1, hl1, hr1⟩, ?_, h2, by decide, ⟨st2, hst2, hl2, hr2⟩, ?_⟩
  · have := hf1
    simp only [Nat.mul_one] at this
    rw [show (4 : Nat) * 2049 = 8196 by decide, h1] at this
    rw [this, hr1]
    rfl
  · have := hf2
    rw [show (4 : Nat) * 3 = 12 by decide, show (4 : Nat) * 2049 = 8196 by decide, h2] at this
    rw [this, hr2]
    rfl

/-- Up to 8192 pixels a side the downsample stage is safe: the sizes after
the halving loop are positive, `resizeImage` returns, and the raster has the
halved size. -/
theorem fill4BitImage_downsample_safe (jpeg_buf img : List Nat) (width height : Nat)
    (hw0 : 0 < width) (hh0 : 0 < height) (hw4 : width % 4 = 0) (hh4 : height % 4 = 0)
    (hbig : width > 2048 ∨ height > 2048) (hw : width ≤ 8192) (hh : height ≤ 8192)
    (himg : img.length = width * height / 2) :
    ∃ out new_w new_h, halve 2048 width height = (new_w, new_h) ∧ 1 ≤ new_w ∧ 1 ≤ new_h ∧
      1 ≤ width / new_w ∧ new_h * (width / new_w) ≤ height ∧
      fill4BitImage jpeg_buf img width height = some (out, new_w, new_h) ∧
      out.length = new_w * new_h * 3 := by
  obtain ⟨W4, rfl⟩ : ∃ W4, width = 4 * W4 := ⟨width / 4, by omega⟩
  obtain ⟨H4, rfl⟩ : ∃ H4, height = 4 * H4 := ⟨height / 4, by omega⟩
  have hmul : 4 * W4 * (4 * H4) = 16 * (W4 * H4) := by ring
  have himg1 : img.length = 8 * (W4 * H4) := by
    rw [himg, hmul]
    omega
  obtain ⟨st, _, hlen, hfill⟩ := fill4BitImage_downsample jpeg_buf img W4 H4 (by omega) himg1 hbig
  have hWpos : 0 < W4 := by omega
  have key : ∃ new_w new_h, halve 2048 (4 * W4) (4 * H4) = (new_w, new_h) ∧ 1 ≤ new_w ∧
      1 ≤ new_h ∧ 1 ≤ 4 * W4 / new_w ∧ new_h * (4 * W4 / new_w) ≤ 4 * H4 := by
    by_cases h2 : 4 * W4 / 2 > 2048 ∨ 4 * H4 / 2 > 2048
    · refine ⟨W4, H4, ?_, by omega, by omega, ?_, ?_⟩
      · rw [halve, if_pos hbig, halve, if_pos h2, halve, if_neg (by omega)]
        simp only [Prod.mk.injEq]
        omega
      · rw [Nat.mul_div_cancel _ hWpos]
        decide
      · rw [Nat.mul_div_cancel _ hWpos]
        omega
    · have hd : 4 * W4 / (2 * W4) = 2 := by
        rw [show 4 * W4 = 2 * (2 * W4) by ring]
        exact Nat.mul_div_cancel _ (by omega)
      refine ⟨2 * W4, 2 * H4, ?_, by omega, by omega, ?_, ?_⟩
      · rw [halve, if_pos hbig, halve, if_neg h2]
        simp only [Prod.mk.injEq]
        omega
      · rw [hd]
        decide
      · rw [hd]
        omega
  obtain ⟨new_w, new_h, hhalve, h1, h2, h3, h4⟩ := key
  have hint : 4 * W4 * (4 * H4) * 3 < 2 ^ 31 := by
    have : 4 * W4 * (4 * H4) ≤ 8192 * 8192 := Nat.mul_le_mul hw hh
    omega
  obtain ⟨out, hout, hl, _⟩ :=
    resizeImage_spec st.jpeg_buf (4 * W4) (4 * H4) new_w new_h hlen hint h3 h4
  refine ⟨out, new_w, new_h, hhalve, h1, h2, h3, h4, ?_, hl⟩
  rw [hfill, hhalve]
  simp only [hout, Option.map_some']

theorem fill4BitImage_downsample_safe_witness :
    (0 < 4 ∧ 0 < 4096 ∧ 4 % 4 = 0 ∧ 4096 % 4 = 0 ∧ (4 > 2048 ∨ 4096 > 2048) ∧ 4 ≤ 8192 ∧
      4096 ≤ 8192 ∧ (List.replicate 8192 0).length = 4 * 4096 / 2) ∧
    ∃ out new_w new_h, halve 2048 4 4096 = (new_w, new_h) ∧ 1 ≤ new_w ∧ 1 ≤ new_h ∧
      1 ≤ 4 / new_w ∧ new_h * (4 / new_w) ≤ 4096 ∧
      fill4BitImage [] (List.replicate 8192 0) 4 4096 = some (out, new_w, new_h) ∧
      out.length = new_w * new_h * 3 :=
  ⟨⟨by decide, by decide, by decide, by decide, by decide, by decide, by decide,
      List.length_replicate _ _⟩,
    fill4BitImage_downsample_safe [] (List.replicate 8192 0) 4 4096 (by decide) (by decide)
      (by decide) (by decide) (by decide) (by decide) (by decide) (List.length_replicate _ _)⟩

end internal

namespace scially

/-! ## Plain images -/

/-- C6, evaluated on the code: for two rows of three payload bytes with row
stride 4 the loop copies `[1, 2, 3, 4, 5]`, five bytes, where the rows'
payload is `[1, 2, 3, 4, 5, 6]`: the end of row `i` is taken at
`rowSize * i + rowSize` although the row starts at `rowStep * i`. -/
theorem copyRows_padded_rows :
    copyRows paddedRows 4 3 2 = some [1, 2, 3, 4, 5] ∧
    rowPayload paddedRows 4 3 2 = [1, 2, 3, 4, 5, 6] ∧
    copyRows paddedRows 4 3 2 ≠ some (rowPayload paddedRows 4 3 2) := by
  decide


/-- Without padding (`rowStep = rowSize`) the loop copies exactly the rows'
payload. -/
theorem copyRows_no_padding (data : List Nat) (rowSize height : Nat)
    (h : rowSize * height ≤ data.length) :
    copyRows data rowSize rowSize height = some (rowPayload data rowSize rowSize height) := by
  obtain ⟨out, hout, hI⟩ := internal.foldlM_range_invariant
    (fun jpegBuffer i => insertRange jpegBuffer data (rowSize * i) (rowSize * i + rowSize))
    (fun k buf => buf = rowPayload data rowSize rowSize k) height []
    (by simp [rowPayload])
    (by
      intro k buf hk hbuf
      have h1 : rowSize * (k + 1) ≤ rowSize * height := Nat.mul_le_mul_left rowSize hk
      have h2 : rowSize * (k + 1) = rowSize * k + rowSize := by ring
      refine ⟨buf ++ (data.drop (rowSize * k)).take (rowSize * k + rowSize - rowSize * k), ?_, ?_⟩
      · simp only [insertRange]
        rw [if_pos ⟨by omega, by omega⟩]
      · simp only [hbuf]
        simp [rowPayload, List.range_succ, List.flatMap_append])
  rw [copyRows, hout, hI]

/-! ## Tile names and level numbers -/


theorem digitChar_props (k : Nat) (hk : k < 10) :
    (Nat.digitChar k).isDigit = true ∧ (Nat.digitChar k).isWhitespace = false ∧
    Nat.digitChar k ≠ '-' ∧ Nat.digitChar k ≠ '+' ∧ Nat.digitChar k ≠ '_' ∧
    (Nat.digitChar k).toNat - 48 = k := by
  interval_cases k <;> decide

theorem toDigitsCore_spec : ∀ (fuel n : Nat) (ds : QString), n < fuel →
    ∃ pre, Nat.toDigitsCore 10 fuel n ds = pre ++ ds ∧ pre ≠ [] ∧
      (∀ c ∈ pre, ∃ k, k < 10 ∧ c = Nat.digitChar k) ∧
      List.foldl (fun a c => 10 * a + (c.toNat - 48)) 0 pre = n
  | 0, n, ds, h => by omega
  | fuel + 1, n, ds, h => by
    rw [Nat.toDigitsCore]
    by_cases hn : n / 10 = 0
    · simp only [hn, if_true]
      refine ⟨[Nat.digitChar (n % 10)], rfl, by simp, ?_, ?_⟩
      · intro c hc
        exact ⟨n % 10, Nat.mod_lt _ (by decide), by simpa using hc⟩
      · simp only [List.foldl]
        rw [(digitChar_props (n % 10) (Nat.mod_lt _ (by decide))).2.2.2.2.2]
        omega
    · simp only [hn, if_false]
      obtain ⟨pre, hpre, _, hdig, hval⟩ :=
        toDigitsCore_spec fuel (n / 10) (Nat.digitChar (n % 10) :: ds) (by omega)
      refine ⟨pre ++ [Nat.digitChar (n % 10)], by simp [hpre], by simp, ?_, ?_⟩
      · intro c hc
        rcases List.mem_append.mp hc with hc | hc
        · exact hdig c hc
        · exact ⟨n % 10, Nat.mod_lt _ (by decide), by simpa using hc⟩
      · rw [List.foldl_append, hval]
        simp only [List.foldl]
        rw [(digitChar_props (n % 10) (Nat.mod_lt _ (by decide))).2.2.2.2.2]
        omega

theorem decimal_spec (n : Nat) :
    decimal n ≠ [] ∧ (∀ c ∈ decimal n, ∃ k, k < 10 ∧ c = Nat.digitChar k) ∧
    digitsValue (decimal n) = n := by
  obtain ⟨pre, hpre, hne, hdig, hval⟩ := toDigitsCore_spec (n + 1) n [] (Nat.lt_succ_self n)
  have h : decimal n = pre := by simp [decimal, Nat.toDigits, hpre]
  rw [h]
  exact ⟨hne, hdig, hval⟩

theorem dropWhile_eq_self_of_all_false (p : Char → Bool) (l : QString)
    (h : ∀ c ∈ l, p c = false) : l.dropWhile p = l := by
  cases l with
  | nil => rfl
  | cons a l => simp [List.dropWhile, h a (by simp)]

theorem toInt_decimal (n : Nat) (hn : n < 2 ^ 31) : toInt (decimal n) = (n : Int) := by
  obtain ⟨hne, hdig, hval⟩ := decimal_spec n
  have hws : ∀ c ∈ decimal n, c.isWhitespace = false := fun c hc => by
    obtain ⟨k, hk, rfl⟩ := hdig c hc
    exact (digitChar_props k hk).2.1
  have hws1 : ∀ c ∈ (decimal n).reverse, c.isWhitespace = false := fun c hc =>
    hws c (List.mem_reverse.mp hc)
  have hall : (decimal n).all Char.isDigit = true := by
    rw [List.all_eq_true]
    intro c hc
    obtain ⟨k, hk, rfl⟩ := hdig c hc
    exact (digitChar_props k hk).1
  have hhead : ∃ c l, decimal n = c :: l ∧ c ≠ '-' ∧ c ≠ '+' := by
    cases hd : decimal n with
    | nil => exact absurd hd hne
    | cons c l =>
      obtain ⟨k, hk, rfl⟩ := hdig c (by rw [hd]; simp)
      exact ⟨_, l, rfl, (digitChar_props k hk).2.2.1, (digitChar_props k hk).2.2.2.1⟩
  obtain ⟨c, l, hcl, hm, hp⟩ := hhead
  have hh1 : ((decimal n).head? == some '-') = false := by
    rw [hcl]
    simpa using hm
  have hh2 : ((decimal n).head? == some '+') = false := by
    rw [hcl]
    simpa using hp
  have hemp : (decimal n).isEmpty = false := by
    rw [hcl]
    rfl
  have hn1 : (n : Int) ≤ 2147483647 := by
    have : n < 2147483648 := hn
    omega
  simp only [toInt, dropWhile_eq_self_of_all_false _ _ hws,
    dropWhile_eq_self_of_all_false _ _ hws1, List.reverse_reverse, hh1, hh2, Bool.or_self,
    Bool.false_eq_true, if_false, hemp, hall, hval, Bool.not_true]
  rw [if_pos ⟨by omega, hn1⟩]

theorem findSub_marker (base t : QString) (hbase : ¬ ['_', 'L'] <:+: base) :
    findSub ['_', 'L'] (base ++ '_' :: 'L' :: t) = some base.length := by
  induction base with
  | nil => simp [findSub, List.isPrefixOf]
  | cons c cs ih =>
    have hcs : ¬ ['_', 'L'] <:+: cs := fun h => hbase (h.trans (List.suffix_cons c cs).isInfix)
    have hpre : ['_', 'L'].isPrefixOf (c :: (cs ++ '_' :: 'L' :: t)) = false := by
      cases cs with
      | nil => simp [List.isPrefixOf]
      | cons d ds =>
        by_contra hcon
        simp only [Bool.not_eq_false, List.cons_append, List.isPrefixOf, Bool.and_eq_true,
          beq_iff_eq, Bool.and_true] at hcon
        apply hbase
        rw [← hcon.1, ← hcon.2]
        exact (List.prefix_append ['_', 'L'] ds).isInfix
    rw [List.cons_append, findSub, hpre, ih hcs]
    simp

theorem findSub_none (pat s : QString) (h : ¬ pat <:+: s) : findSub pat s = none := by
  induction s with
  | nil =>
    have : pat.isPrefixOf [] = false := by
      by_contra hcon
      simp only [Bool.not_eq_false, List.isPrefixOf_iff_prefix] at hcon
      exact h hcon.isInfix
    simp [findSub, this]
  | cons c cs ih =>
    have hpre : pat.isPrefixOf (c :: cs) = false := by
      by_contra hcon
      simp only [Bool.not_eq_false, List.isPrefixOf_iff_prefix] at hcon
      exact h hcon.isInfix
    have hcs : ¬ pat <:+: cs := fun h1 => h (h1.trans (List.suffix_cons c cs).isInfix)
    simp [findSub, hpre, ih hcs]

theorem findSub_underscore (ds rest : QString) (h : ∀ c ∈ ds, c ≠ '_') :
    findSub ['_'] (ds ++ '_' :: rest) = some ds.length := by
  induction ds with
  | nil => simp [findSub, List.isPrefixOf]
  | cons c cs ih =>
    have hc : c ≠ '_' := h c (by simp)
    have hpre : ['_'].isPrefixOf (c :: (cs ++ '_' :: rest)) = false := by
      simp [List.isPrefixOf, Ne.symm hc]
    rw [List.cons_append, findSub, hpre, ih (fun d hd => h d (by simp [hd]))]
    simp

theorem indexOf_marker (base t : QString) (hbase : ¬ ['_', 'L'] <:+: base) :
    indexOf (base ++ '_' :: 'L' :: t) ['_', 'L'] 0 = (base.length : Int) := by
  simp [indexOf, findSub_marker base t hbase]

/-- C8: for a `base` without `_L`, a node named `base` has level number 0
and tile name `base`, and for every `N < 2^31` and every `rest` a node named
`base ++ "_L" ++ decimal N ++ "_" ++ rest` has level number `N` and tile name
`base`. -/
theorem getLevelNumber_getTileName (base nodePath : QString) (subNodes : List OSGBLevel)
    (hbase : ¬ ['_', 'L'] <:+: base) :
    (OSGBLevel.getLevelNumber (.mk base nodePath subNodes) = 0 ∧
      OSGBLevel.getTileName (.mk base nodePath subNodes) = base) ∧
    ∀ (N : Nat) (rest : QString), N < 2 ^ 31 →
      OSGBLevel.getLevelNumber
          (.mk (base ++ '_' :: 'L' :: (decimal N ++ '_' :: rest)) nodePath subNodes) = (N : Int) ∧
      OSGBLevel.getTileName
          (.mk (base ++ '_' :: 'L' :: (decimal N ++ '_' :: rest)) nodePath subNodes) = base := by
  constructor
  · have h : indexOf base ['_', 'L'] 0 = -1 := by
      simp [indexOf, findSub_none _ _ hbase]
    simp [OSGBLevel.getLevelNumber, OSGBLevel.getTileName, OSGBLevel.nodeName, h]
  · intro N rest hN
    obtain ⟨_, hdig, _⟩ := decimal_spec N
    have h0 := indexOf_marker base (decimal N ++ '_' :: rest) hbase
    have hdrop : (base ++ '_' :: 'L' :: (decimal N ++ '_' :: rest)).drop (base.length + 2)
        = decimal N ++ '_' :: rest := by
      have : base ++ '_' :: 'L' :: (decimal N ++ '_' :: rest)
          = (base ++ ['_', 'L']) ++ (decimal N ++ '_' :: rest) := by simp
      rw [this]
      exact List.drop_left' (by simp)
    have h1 : indexOf (base ++ '_' :: 'L' :: (decimal N ++ '_' :: rest)) ['_']
        (base.length + 2) = ((base.length + 2 + (decimal N).length : Nat) : Int) := by
      rw [indexOf, hdrop, findSub_underscore (decimal N) rest (fun c hc => by
        obtain ⟨k, hk, rfl⟩ := hdig c hc
        exact (digitChar_props k hk).2.2.2.2.1)]
    have e1 : ((base.length : Int) + 2).toNat = base.length + 2 := by omega
    have e2 : (((base.length + 2 + (decimal N).length : Nat) : Int) - (base.length : Int) - 2).toNat
        = (decimal N).length := by omega
    have hlt : ¬ ((base.length : Int) < 0) := by omega
    have hlt1 : ¬ (((base.length + 2 + (decimal N).length : Nat) : Int) < 0) := by omega
    constructor
    · simp only [OSGBLevel.getLevelNumber, OSGBLevel.nodeName, h0, hlt, if_false, e1, h1, hlt1,
        mid, e2, hdrop, List.take_left']
      exact toInt_decimal N hN
    · simp only [OSGBLevel.getTileName, OSGBLevel.nodeName, h0, hlt, if_false, left,
        Int.toNat_ofNat]
      exact List.take_left' rfl

theorem getLevelNumber_getTileName_witness :
    ¬ ['_', 'L'] <:+: "tile".toList ∧
    OSGBLevel.getLevelNumber (.mk "tile".toList [] []) = 0 ∧
    OSGBLevel.getTileName (.mk "tile".toList [] []) = "tile".toList ∧
    OSGBLevel.getLevelNumber (.mk "tile_L3_0_0".toList [] []) = 3 ∧
    OSGBLevel.getTileName (.mk "tile_L3_0_0".toList [] []) = "tile".toList :=
  ⟨by decide,
    (getLevelNumber_getTileName "tile".toList [] [] (by decide)).1.1,
    (getLevelNumber_getTileName "tile".toList [] [] (by decide)).1.2,
    ((getLevelNumber_getTileName "tile".toList [] [] (by decide)).2 3 "0_0".toList
      (by decide)).1,
    ((getLevelNumber_getTileName "tile".toList [] [] (by decide)).2 3 "0_0".toList
      (by decide)).2⟩

/-! ## Discovery of the tile tree -/

theorem countMaterial_mem (tex : Texture) (textureArray : List Texture) (material : Int)
    (h : tex ∈ textureArray) :
    countMaterial tex textureArray material = material + (textureArray.indexOf tex : Nat) + 1 := by
  induction textureArray generalizing material with
  | nil => cases h
  | cons t rest ih =>
    rw [countMaterial, List.indexOf_cons]
    by_cases ht : tex = t
    · subst ht
      simp
    · have hne : (t == tex) = false := by
        simpa using fun h1 => ht h1.symm
      have hmem : tex ∈ rest := by
        rcases List.mem_cons.mp h with h1 | h1
        · exact absurd h1 ht
        · exact h1
      rw [if_neg ht, ih _ hmem, hne]
      simp only [cond_false, Nat.cast_add, Nat.cast_one]
      omega

/-- What the traversal leaves in the visitor: the stored texture of a
geometry is its bound texture, and every bound texture of a visited geometry
is in `textureArray`. -/
theorem OSGBPageLodVisitor.visit_spec (geometries : List Geometry) :
    (OSGBPageLodVisitor.visit geometries).geometryArray = geometries ∧
    (∀ g ∈ geometries, (OSGBPageLodVisitor.visit geometries).textureMap g = g.texture) ∧
    ∀ g ∈ geometries, ∀ tex, g.texture = some tex →
      tex ∈ (OSGBPageLodVisitor.visit geometries).textureArray := by
  have key : ∀ (gs : List Geometry) (v : OSGBPageLodVisitor) (done : List Geometry),
      v.geometryArray = done →
      (∀ g, v.textureMap g = none ∨ v.textureMap g = g.texture) →
      (∀ g ∈ done, v.textureMap g = g.texture) →
      (∀ g ∈ done, ∀ tex, g.texture = some tex → tex ∈ v.textureArray) →
      (gs.foldl OSGBPageLodVisitor.applyGeometry v).geometryArray = done ++ gs ∧
      (∀ g ∈ done ++ gs,
        (gs.foldl OSGBPageLodVisitor.applyGeometry v).textureMap g = g.texture) ∧
      ∀ g ∈ done ++ gs, ∀ tex, g.texture = some tex →
        tex ∈ (gs.foldl OSGBPageLodVisitor.applyGeometry v).textureArray := by
    intro gs
    induction gs with
    | nil =>
      intro v done h1 _ h3 h4
      simpa using ⟨h1, h3, h4⟩
    | cons g gs ih =>
      intro v done h1 h2 h3 h4
      have := ih (OSGBPageLodVisitor.applyGeometry v g) (done ++ [g]) ?_ ?_ ?_ ?_
      · simpa using this
      · cases ht : g.texture <;> simp [OSGBPageLodVisitor.applyGeometry, ht, h1]
      · intro g1
        cases ht : g.texture with
        | none => simpa [OSGBPageLodVisitor.applyGeometry, ht] using h2 g1
        | some tex =>
          simp only [OSGBPageLodVisitor.applyGeometry, ht, OSGBPageLodVisitor.setTexture]
          by_cases hg : g1 = g
          · subst hg
            simp [ht]
          · simpa [hg] using h2 g1
      · intro g1 hg1
        cases ht : g.texture with
        | none =>
          simp only [OSGBPageLodVisitor.applyGeometry, ht]
          rcases List.mem_append.mp hg1 with hg1 | hg1
          · exact h3 g1 hg1
          · simp only [List.mem_singleton] at hg1
            subst hg1
            rcases h2 g1 with h | h
            · rw [h, ht]
            · exact h
        | some tex =>
          simp only [OSGBPageLodVisitor.applyGeometry, ht, OSGBPageLodVisitor.setTexture]
          by_cases hg : g1 = g
          · subst hg
            simp [ht]
          · rcases List.mem_append.mp hg1 with hg1 | hg1
            · simpa [hg] using h3 g1 hg1
            · simp only [List.mem_singleton] at hg1
              exact absurd hg1 hg
      · intro g1 hg1 tex1 ht1
        have hsub : ∀ t ∈ v.textureArray,
            t ∈ (OSGBPageLodVisitor.applyGeometry v g).textureArray := by
          intro t htm
          cases ht : g.texture with
          | none => simpa [OSGBPageLodVisitor.applyGeometry, ht] using htm
          | some tex =>
            simp only [OSGBPageLodVisitor.applyGeometry, ht, OSGBPageLodVisitor.insertTexture]
            split
            · exact htm
            · exact List.mem_append_left _ htm
        rcases List.mem_append.mp hg1 with hg1 | hg1
        · exact hsub _ (h4 g1 hg1 tex1 ht1)
        · simp only [List.mem_singleton] at hg1
          subst hg1
          simp only [OSGBPageLodVisitor.applyGeometry, ht1, OSGBPageLodVisitor.insertTexture]
          split
          · assumption
          · simp
  have := key geometries ⟨[], [], fun _ => none⟩ [] rfl (fun _ => Or.inl rfl)
    (fun _ h => by cases h) (fun _ h => by cases h)
  simpa [OSGBPageLodVisitor.visit] using this

theorem meshStep_spec (v : OSGBPageLodVisitor) (hne : v.textureArray ≠ []) (g : Geometry)
    (hmap : v.textureMap g = g.texture)
    (hmem : ∀ tex, g.texture = some tex → tex ∈ v.textureArray) (prims : List Primitive) :
    meshStep v (prims, prims.length) g =
      some (prims ++ geometryPrimitives v.textureArray g,
        (prims ++ geometryPrimitives v.textureArray g).length) := by
  by_cases hc : g.vertexDataSize = none ∨ g.vertexDataSize = some 0
  · simp [meshStep, hc, Geometry.consumed, geometryPrimitives]
  · have hcons : g.consumed = true := by simp [Geometry.consumed, hc]
    have hlen : v.textureArray.length ≠ 0 := by
      intro h
      exact hne (List.length_eq_zero.mp h)
    simp only [meshStep, if_neg hc, hcons, if_true, hlen, ne_eq, not_false_eq_true,
      appendOSGGeometry, geometryPrimitives]
    obtain ⟨⟨out, idx⟩, hout, hidx, hl, hpre, hdone, _⟩ := internal.foldlM_range_invariant
      (updatePrimitive v g)
      (fun k (st : List Primitive × Nat) => st.2 = prims.length + k ∧
        st.1.length = prims.length + g.numPrimitiveSets ∧
        (∀ j, j < prims.length → st.1[j]? = prims[j]?) ∧
        (∀ j, j < k → st.1[prims.length + j]? = some ⟨materialIndex v.textureArray g⟩) ∧
        (∀ j, k ≤ j → j < g.numPrimitiveSets → st.1[prims.length + j]? = some ⟨-1⟩))
      g.numPrimitiveSets (prims ++ List.replicate g.numPrimitiveSets (⟨-1⟩ : Primitive), prims.length)
      ⟨rfl, by simp, fun j hj => List.getElem?_append_left hj, fun j hj => by omega,
        fun j _ hj => by
          rw [List.getElem?_append_right (by omega)]
          simp [List.getElem?_replicate, hj]⟩
      (by
        intro k st hk ⟨h1, h2, h3, h4, h5⟩
        obtain ⟨l, idx⟩ := st
        simp only at h1 h2 h3 h4 h5
        subst h1
        cases ht : g.texture with
        | none =>
          refine ⟨(l, prims.length + k + 1), by simp [updatePrimitive, hmap, ht], rfl, h2, h3,
            ?_, fun j hj hjn => h5 j (by omega) hjn⟩
          intro j hj
          by_cases hjk : j = k
          · subst hjk
            rw [h5 j (Nat.le_refl j) hk]
            simp [materialIndex, ht]
          · exact h4 j (by omega)
        | some tex =>
          have hcur := h5 k (Nat.le_refl k) hk
          have hmi : countMaterial tex v.textureArray (-1) = materialIndex v.textureArray g := by
            rw [countMaterial_mem tex _ _ (hmem tex ht)]
            simp [materialIndex, ht]
          refine ⟨(l.set (prims.length + k) ⟨materialIndex v.textureArray g⟩,
            prims.length + k + 1), by simp [updatePrimitive, hmap, ht, hcur, hmi], rfl,
            by simp [h2], ?_, ?_, ?_⟩
          · intro j hj
            rw [List.getElem?_set_ne (by omega)]
            exact h3 j hj
          · intro j hj
            by_cases hjk : j = k
            · subst hjk
              exact List.getElem?_set_self (by omega)
            · rw [List.getElem?_set_ne (by omega)]
              exact h4 j (by omega)
          · intro j hj hjn
            rw [List.getElem?_set_ne (by omega)]
            exact h5 j (by omega) hjn)
    simp only at hidx hl hpre hdone
    have heq : out = prims ++
        List.replicate g.numPrimitiveSets ⟨materialIndex v.textureArray g⟩ := by
      apply List.ext_getElem?
      intro m
      by_cases hm : m < prims.length
      · rw [hpre m hm, List.getElem?_append_left hm]
      · by_cases hm2 : m < prims.length + g.numPrimitiveSets
        · have := hdone (m - prims.length) (by omega)
          rw [show prims.length + (m - prims.length) = m by omega] at this
          rw [this, List.getElem?_append_right (by omega)]
          simp [List.getElem?_replicate]
          omega
        · rw [List.getElem?_eq_none (by omega), List.getElem?_eq_none (by simp; omega)]
    rw [hout, hidx, heq]
    simp

theorem meshFold_spec (v : OSGBPageLodVisitor) (hne : v.textureArray ≠ []) :
    ∀ (gs : List Geometry) (prims : List Primitive),
      (∀ g ∈ gs, v.textureMap g = g.texture ∧
        ∀ tex, g.texture = some tex → tex ∈ v.textureArray) →
      gs.foldlM (meshStep v) (prims, prims.length) =
        some (prims ++ gs.flatMap (geometryPrimitives v.textureArray),
          (prims ++ gs.flatMap (geometryPrimitives v.textureArray)).length)
  | [], prims, _ => by simp
  | g :: gs, prims, h => by
    obtain ⟨h1, h2⟩ := h g (by simp)
    rw [List.foldlM_cons, meshStep_spec v hne g h1 h2 prims]
    simp only [Option.bind_eq_bind, Option.some_bind]
    rw [meshFold_spec v hne gs _ (fun g1 hg1 => h g1 (by simp [hg1]))]
    simp [List.flatMap_cons]

/-- C10: the traversal leaves in the visitor the geometries in order, for
each of them its bound texture as the stored texture, and every bound texture
in the texture sequence. For every visitor of that kind with a non-empty
texture sequence, whatever the order of the sequence, the loop of `convertGLB`
leaves in mesh 0, geometry by geometry and only for consumed geometries, one
primitive per primitive set whose material is the material index of the
geometry: the position of the first occurrence of its bound texture in the
texture sequence, which is below the length of the sequence (the number of
materials), or -1 when no texture is bound. -/
theorem convertGLB_material_index :
    (∀ geometries : List Geometry,
      (OSGBPageLodVisitor.visit geometries).geometryArray = geometries ∧
      (∀ g ∈ geometries, (OSGBPageLodVisitor.visit geometries).textureMap g = g.texture) ∧
      ∀ g ∈ geometries, ∀ tex, g.texture = some tex →
        tex ∈ (OSGBPageLodVisitor.visit geometries).textureArray) ∧
    (∀ v : OSGBPageLodVisitor, v.textureArray ≠ [] →
      (∀ g ∈ v.geometryArray, v.textureMap g = g.texture) →
      (∀ g ∈ v.geometryArray, ∀ tex, g.texture = some tex → tex ∈ v.textureArray) →
      ∃ prims, meshLoop v = some (prims, prims.length) ∧
        prims = v.geometryArray.flatMap (fun g =>
          if g.consumed then
            List.replicate g.numPrimitiveSets ⟨materialIndex v.textureArray g⟩
          else []) ∧
        ∀ g ∈ v.geometryArray,
          (∀ tex, g.texture = some tex →
            materialIndex v.textureArray g = ((v.textureArray.indexOf tex : Nat) : Int) ∧
            v.textureArray.indexOf tex < v.textureArray.length) ∧
          (g.texture = none → materialIndex v.textureArray g = -1)) := by
  refine ⟨OSGBPageLodVisitor.visit_spec, fun v hne hmap hmem => ?_⟩
  have hfold := meshFold_spec v hne v.geometryArray []
    (fun g hg1 => ⟨hmap g hg1, hmem g hg1⟩)
  refine ⟨_, ?_, rfl, ?_⟩
  · rw [meshLoop]
    simpa [geometryPrimitives] using hfold
  · intro g hg1
    refine ⟨fun tex ht => ⟨by simp [materialIndex, ht], ?_⟩, fun ht => by simp [materialIndex, ht]⟩
    exact List.indexOf_lt_length.mpr (hmem g hg1 tex ht)

theorem convertGLB_material_index_witness :
    (OSGBPageLodVisitor.visit exampleGeometries).textureArray = [70, 71, 80] ∧
    meshLoop (OSGBPageLodVisitor.visit exampleGeometries)
      = some ([⟨0⟩, ⟨0⟩, ⟨-1⟩, ⟨2⟩, ⟨0⟩], 5) ∧
    ∃ prims, meshLoop (OSGBPageLodVisitor.visit exampleGeometries) = some (prims, prims.length) ∧
      prims = (OSGBPageLodVisitor.visit exampleGeometries).geometryArray.flatMap (fun g =>
        if g.consumed then
          List.replicate g.numPrimitiveSets
            ⟨materialIndex (OSGBPageLodVisitor.visit exampleGeometries).textureArray g⟩
        else []) :=
  ⟨by decide, by decide,
    (convertGLB_material_index.2 (OSGBPageLodVisitor.visit exampleGeometries) (by decide)
      (by decide) (by decide)).imp (fun _ h => ⟨h.1, h.2.1⟩)⟩

end scially
